import Mathlib

/-!
# CAN console adapter of the bootloader (`boot/zephyr/can_adapter.c`)

A shallow embedding of the line-assembly queue between the CAN receive
callback `can_rx_cb` and the polling reader `boot_can_fifo_getline`, of the
outbound chunking in `console_write`, of `console_read` and of
`boot_console_init`, followed by the properties proved about them.

Conventions of the embedding.

* A `char` (and a payload byte) is its integer value: `'\n'` is `10`, `'\0'`
  is `0`, `EOF` is `-1`.
* A pointer to a line buffer is the index of that buffer in `line_bufs`;
  `none` is `NULL`.
* A function that dereferences `NULL` has no result: it returns `none`.
* The cursor `cur` is a `uint16_t`: its increment is taken modulo `2 ^ 16`.
-/

namespace CanAdapter

/-! ## Configuration and data model -/

/-- Build-time configuration constants used by the source file. -/
structure Config where
  /-- Capacity of one line buffer, `char line[CONFIG_BOOT_MAX_LINE_INPUT_LEN]`. -/
  CONFIG_BOOT_MAX_LINE_INPUT_LEN : Nat
  /-- Number of line buffers, `line_bufs[CONFIG_BOOT_LINE_BUFS]`. -/
  CONFIG_BOOT_LINE_BUFS : Nat
  /-- Identifier of the inbound frames. -/
  CONFIG_MCUBOOT_CAN_RX_ID : Nat
  /-- Identifier of the outbound frames. -/
  CONFIG_MCUBOOT_CAN_TX_ID : Nat
deriving DecidableEq, Repr

/-- Modelled from the spec: the C library constant `EOF` (the
"end-of-stream marker"), whose header is not part of the source; its value in
the C libraries is `-1`. -/
def EOF : Int := -1

/-- Modelled from the spec: `CAN_MAX_DLC`, the maximum payload size of a
frame ("8 bytes for the target transport"); the driver header is not part of
the source. -/
def CAN_MAX_DLC : Int := 8

/-- Modelled from the spec: `CAN_STD_ID_MASK`, the largest standard
identifier (11 bits); the driver header is not part of the source. -/
def CAN_STD_ID_MASK : Nat := 0x7FF

/-- Modelled from the spec: `CAN_EXT_ID_MASK`, the largest extended
identifier (29 bits); the driver header is not part of the source. -/
def CAN_EXT_ID_MASK : Nat := 0x1FFFFFFF

/-- Modelled from the spec: `CAN_FILTER_IDE`, the flag selecting extended
addressing; the driver header is not part of the source. -/
def CAN_FILTER_IDE : Nat := 1

/-- Modelled from the spec: the errno constant `EINVAL`, whose header is not
part of the source. -/
def EINVAL : Int := 22

/-- Modelled from the spec: `struct can_frame` of the driver, "a single
fixed-maximum-payload transport unit carrying an identifier and up to the
transport's max payload bytes". `dlc` is the byte count and `data` the payload
array. -/
structure can_frame where
  id : Nat
  dlc : Nat
  flags : Nat
  data : List Int
deriving DecidableEq, Repr

/-- Modelled from the spec: `struct can_filter` of the driver, an
identifier/mask pair with flags. -/
structure can_filter where
  id : Nat
  mask : Nat
  flags : Nat
deriving DecidableEq, Repr

/-- The receive filter `smp_rx_filter`. -/
def smp_rx_filter (cfg : Config) : can_filter :=
  { id := cfg.CONFIG_MCUBOOT_CAN_RX_ID
    mask := if cfg.CONFIG_MCUBOOT_CAN_RX_ID > CAN_STD_ID_MASK then CAN_EXT_ID_MASK
            else CAN_STD_ID_MASK
    flags := if cfg.CONFIG_MCUBOOT_CAN_RX_ID > CAN_STD_ID_MASK then CAN_FILTER_IDE else 0 }

/-- The record `struct line_input` without its list node: the node is the
buffer's membership in one of the queues of `State`. -/
structure line_input where
  len : Int
  line : List Int
deriving DecidableEq, Repr

/-- The file-scope variables of the adapter. `cmd` is the in-progress buffer
of `can_rx_cb`; `getline_cmd` is the function-static `cmd` of
`boot_can_fifo_getline`, the buffer handed out by the previous call. -/
structure State where
  line_bufs : List line_input
  avail_queue : List Nat
  lines_queue : List Nat
  cur : Nat
  cmd : Option Nat
  getline_cmd : Option Nat
deriving DecidableEq, Repr

/-! ## The queue primitives -/

/-- Modelled from the spec: `sys_slist_init` of the kernel's list library,
which is not part of the source; a queue is an "ordered sequence of
LineBuffer (FIFO)" and starts empty. -/
def sys_slist_init : List Nat := []

/-- Modelled from the spec: `sys_slist_get`, "removes and returns the head"
of the queue, or `NULL` when the queue is empty. -/
def sys_slist_get : List Nat → Option Nat × List Nat
  | [] => (none, [])
  | n :: rest => (some n, rest)

/-- Modelled from the spec: `sys_slist_append`, "appends to the tail" of the
queue. -/
def sys_slist_append (l : List Nat) (node : Nat) : List Nat := l ++ [node]

/-- Modelled from the spec: `sys_slist_peek_tail`, the last node of the queue
or `NULL`. -/
def sys_slist_peek_tail (l : List Nat) : Option Nat := l.getLast?

/-! ## Access to the line buffers -/

/-- The buffer a pointer designates. An index outside `line_bufs` designates
no buffer; the value given for it is never used in a state where every
pointer held is a buffer index. -/
def buf (s : State) (b : Nat) : line_input := s.line_bufs.getD b ⟨0, []⟩

/-- The store `line_bufs[b].line[i] = v`. -/
def store_line (bufs : List line_input) (b i : Nat) (v : Int) : List line_input :=
  match bufs.get? b with
  | some li => bufs.set b { li with line := li.line.set i v }
  | none => bufs

/-- The store `line_bufs[b].len = n`. -/
def store_len (bufs : List line_input) (b : Nat) (n : Int) : List line_input :=
  match bufs.get? b with
  | some li => bufs.set b { li with len := n }
  | none => bufs

/-! ## The receive callback -/

/-- One iteration of the loop of `can_rx_cb` on the byte `byte`. Both
statements dereference `cmd`; with `cmd == NULL` there is no result. -/
def rx_byte (cfg : Config) (s : State) (byte : Int) : Option State :=
  let s1 : Option State :=
    if s.cur < cfg.CONFIG_BOOT_MAX_LINE_INPUT_LEN then
      match s.cmd with
      | none => none
      | some b =>
        some { s with line_bufs := store_line s.line_bufs b s.cur byte
                      cur := (s.cur + 1) % 65536 }
    else some s
  match s1 with
  | none => none
  | some s1 =>
    if byte = 10 then
      match s1.cmd with
      | none => none
      | some b =>
        some { s1 with line_bufs := store_len s1.line_bufs b s1.cur
                       lines_queue := sys_slist_append s1.lines_queue b
                       cur := 0
                       cmd := none }
    else some s1

/-- The loop `for (i = 0; i < frame->dlc; i++)` of `can_rx_cb` over the bytes
it reads. -/
def rx_loop (cfg : Config) : List Int → State → Option State
  | [], s => some s
  | byte :: rest, s =>
    match rx_byte cfg s byte with
    | none => none
    | some s1 => rx_loop cfg rest s1

/-- The callback `can_rx_cb`. The bytes read by the loop are
`frame->data[0 .. dlc-1]`; the logging call changes no state. -/
def can_rx_cb (cfg : Config) (frame : can_frame) (s : State) : Option State :=
  if frame.id = cfg.CONFIG_MCUBOOT_CAN_RX_ID then
    match s.cmd with
    | none =>
      match sys_slist_get s.avail_queue with
      | (none, _) => some s
      | (some node, rest) =>
        rx_loop cfg (frame.data.take frame.dlc)
          { s with avail_queue := rest, cmd := some node }
    | some _ => rx_loop cfg (frame.data.take frame.dlc) s
  else some s

/-! ## The line reader -/

/-- The function `boot_can_fifo_getline`: the new state, the pointer stored in
`*line` and the returned length. The region between `irq_lock` and
`irq_unlock` is one step. -/
def boot_can_fifo_getline (s : State) : State × Option Nat × Int :=
  let avail : List Nat :=
    match s.getline_cmd with
    | some c =>
      if sys_slist_peek_tail s.avail_queue ≠ some c then
        sys_slist_append s.avail_queue c
      else s.avail_queue
    | none => s.avail_queue
  match sys_slist_get s.lines_queue with
  | (none, _) =>
    ({ s with avail_queue := avail, getline_cmd := none }, none, 0)
  | (some node, rest) =>
    ({ s with avail_queue := avail, lines_queue := rest, getline_cmd := some node },
      some node, (buf s node).len)

/-- The function `console_read` on the caller's array `str` of declared size
`str_size`: the new state, the caller's array, the value stored in `*newline`
and the returned count. There is no result when `memcpy` would get a negative
length, read past the line buffer or write past the caller's array. -/
def console_read (s : State) (str : List Int) (str_size : Int) :
    Option (State × List Int × Int × Int) :=
  match boot_can_fifo_getline s with
  | (s1, none, _) => some (s1, str, 0, 0)
  | (s1, some b, len0) =>
    let len : Int := if len0 > str_size - 1 then str_size - 1 else len0
    if 0 ≤ len ∧ len.toNat ≤ (buf s1 b).line.length ∧ len.toNat < str.length then
      let str1 := (buf s1 b).line.take len.toNat ++ str.drop len.toNat
      some (s1, str1.set len.toNat 0, 1, len + 1)
    else none

/-! ## The writer -/

/-- The scan of `console_write` for the first `EOF`: `eof_scan str i cnt` is
the value of `eof_idx` after the loop started at index `i` on the bytes `str`
from that index on. -/
def eof_scan : List Int → Int → Int → Int
  | [], _, _ => -1
  | c :: rest, i, cnt =>
    if i < cnt then
      if c = EOF then i else eof_scan rest (i + 1) cnt
    else -1

/-- The sending loop `while (cnt > 0)` of `console_write`: the frames handed
to `can_send`, in order. `frame` is the static frame, reused between sends. -/
def send_loop (cfg : Config) (frame : can_frame) (str : List Int) (cnt : Int) :
    List can_frame :=
  if _h : cnt > 0 then
    let len : Int := if cnt > CAN_MAX_DLC then CAN_MAX_DLC else cnt
    let frame1 : can_frame :=
      { id := cfg.CONFIG_MCUBOOT_CAN_TX_ID
        dlc := len.toNat
        flags := if cfg.CONFIG_MCUBOOT_CAN_TX_ID > CAN_STD_ID_MASK then CAN_FILTER_IDE else 0
        data := str.take len.toNat ++ frame.data.drop len.toNat }
    frame1 :: send_loop cfg frame1 (str.drop len.toNat) (cnt - len)
  else []
termination_by cnt.toNat
decreasing_by
  simp only [CAN_MAX_DLC]
  split <;> omega

/-- The function `console_write`: the frames handed to `can_send`, in order. -/
def console_write (cfg : Config) (frame : can_frame) (str : List Int) (cnt : Int) :
    List can_frame :=
  let eof_idx := eof_scan str 0 cnt
  let cnt1 := if eof_idx ≠ -1 then eof_idx else cnt
  send_loop cfg frame str cnt1

/-- The bytes a frame carries: the first `dlc` bytes of its data array. -/
def payload (f : can_frame) : List Int := f.data.take f.dlc

/-! ## Initialisation -/

/-- The statics before `boot_console_init`: zero-initialised. -/
def boot_state (cfg : Config) : State :=
  { line_bufs := List.replicate cfg.CONFIG_BOOT_LINE_BUFS
      ⟨0, List.replicate cfg.CONFIG_BOOT_MAX_LINE_INPUT_LEN 0⟩
    avail_queue := []
    lines_queue := []
    cur := 0
    cmd := none
    getline_cmd := none }

/-- The loop of `boot_console_init` appending `line_bufs[i]` for
`i = from, ..., from + n - 1`. -/
def init_loop : Nat → Nat → List Nat → List Nat
  | 0, _, q => q
  | n + 1, i, q => init_loop n (i + 1) (sys_slist_append q i)

/-- The function `boot_console_init`, with the results of the collaborators
`can_start` and `can_add_rx_filter` as parameters: the new state, the returned
status and whether the receive filter was registered. -/
def boot_console_init (cfg : Config) (can_start_rc can_add_rx_filter_rc : Int)
    (s : State) : State × Int × Bool :=
  let s1 : State :=
    { s with avail_queue := init_loop cfg.CONFIG_BOOT_LINE_BUFS 0 sys_slist_init
             lines_queue := sys_slist_init }
  if can_start_rc ≠ 0 then (s1, can_start_rc, false)
  else
    let rc := can_add_rx_filter_rc
    if rc < 0 then (s1, -EINVAL, true) else (s1, rc, true)

/-- The state left by `boot_console_init` on the zero-initialised statics. -/
def init_state (cfg : Config) : State :=
  (boot_console_init cfg 0 0 (boot_state cfg)).1

/-! ## Runs of the two entry points -/

/-- One call from outside: the callback on a frame, or the line reader. -/
inductive Ev where
  | rx (frame : can_frame)
  | getline
deriving DecidableEq, Repr

/-- The state after one call; `none` when the call dereferences `NULL`. -/
def step (cfg : Config) (e : Ev) (s : State) : Option State :=
  match e with
  | Ev.rx frame => can_rx_cb cfg frame s
  | Ev.getline => some (boot_can_fifo_getline s).1

/-- The state after a sequence of calls, in order. -/
def run (cfg : Config) : List Ev → State → Option State
  | [], s => some s
  | e :: rest, s =>
    match step cfg e s with
    | none => none
    | some s1 => run cfg rest s1

/-- The buffers held by the two queues, the producer and the consumer, in
that order and with repetitions. -/
def owners (s : State) : List Nat :=
  s.avail_queue ++ s.lines_queue ++ s.cmd.toList ++ s.getline_cmd.toList

/-- Invariant I1: the holders of buffers hold each of the buffers
`0 .. N-1` once, and nothing else. -/
def PoolInv (cfg : Config) (s : State) : Prop :=
  (owners s).Perm (List.range cfg.CONFIG_BOOT_LINE_BUFS)

/-- A configuration with two buffers of sixteen bytes. -/
def cfg16 : Config :=
  { CONFIG_BOOT_MAX_LINE_INPUT_LEN := 16
    CONFIG_BOOT_LINE_BUFS := 2
    CONFIG_MCUBOOT_CAN_RX_ID := 0x701
    CONFIG_MCUBOOT_CAN_TX_ID := 0x702 }

/-- An inbound frame of `cfg16` carrying the given bytes. -/
def rx16 (bytes : List Int) : can_frame :=
  { id := 0x701, dlc := bytes.length, flags := 0, data := bytes }

/-- The states the program can be in: the state left by `boot_console_init`,
and every state that a call which returns leaves behind. -/
inductive Reachable (cfg : Config) : State → Prop
  | init : Reachable cfg (init_state cfg)
  | step (e : Ev) {s s1 : State} :
      Reachable cfg s → step cfg e s = some s1 → Reachable cfg s1

/-- The states left by a sequence of callback invocations, in order. -/
def rx_run (cfg : Config) : List can_frame → State → Option State
  | [], s => some s
  | f :: rest, s =>
    match can_rx_cb cfg f s with
    | none => none
    | some s1 => rx_run cfg rest s1

/-- Shape of the statics: every pointer held is a buffer index held once
(invariant I1), there are `CONFIG_BOOT_LINE_BUFS` buffers of
`CONFIG_BOOT_MAX_LINE_INPUT_LEN` bytes, and the cursor is `0` when no buffer
is in progress and never beyond the capacity. -/
structure WF (cfg : Config) (s : State) : Prop where
  pool : PoolInv cfg s
  nbufs : s.line_bufs.length = cfg.CONFIG_BOOT_LINE_BUFS
  cap : ∀ li ∈ s.line_bufs, li.line.length = cfg.CONFIG_BOOT_MAX_LINE_INPUT_LEN
  idle : s.cmd = none → s.cur = 0
  cur_le : s.cur ≤ cfg.CONFIG_BOOT_MAX_LINE_INPUT_LEN

/-- What a reader sees of the buffer `b`: its first `len` bytes, and `len`. -/
def view (s : State) (b : Nat) : List Int × Int :=
  ((buf s b).line.take (buf s b).len.toNat, (buf s b).len)

/-- A state of `cfg16` with no ready line and buffer 0 checked out. -/
def state_checked_out : State :=
  { line_bufs := [⟨3, [104, 105, 10, 0, 0, 0, 0, 0, 0, 0, 0, 0, 0, 0, 0, 0]⟩,
                  ⟨0, List.replicate 16 0⟩]
    avail_queue := [1]
    lines_queue := []
    cur := 0
    cmd := none
    getline_cmd := some 0 }


/-- A state of `cfg16` whose `lines_queue` holds the line `"hi\n"` in buffer 0. -/
def state_line_ready : State :=
  { line_bufs := [⟨3, [104, 105, 10, 0, 0, 0, 0, 0, 0, 0, 0, 0, 0, 0, 0, 0]⟩,
                  ⟨0, List.replicate 16 0⟩]
    avail_queue := [1]
    lines_queue := [0]
    cur := 0
    cmd := none
    getline_cmd := none }

/-! ## What the assembler is to do, in the words of the spec -/

/-- What a reader is to see of a line `l` delivered to a buffer of capacity
`C`: "a line of length L > buffer capacity C yields a ready line of length
exactly C, with bytes C..L-1 discarded"; a shorter line is kept whole. -/
def stored (C : Nat) (l : List Int) : List Int × Int :=
  (l.take C, ((min l.length C : Nat) : Int))

/-- The lines completed by a byte stream, in the order of their terminators,
when the bytes `acc` of the first line came before the stream. -/
def split_lines : List Int → List Int → List (List Int)
  | _, [] => []
  | acc, c :: cs =>
    if c = 10 then (acc ++ [c]) :: split_lines [] cs else split_lines (acc ++ [c]) cs

/-- The assembler holds the bytes `acc` of the line in progress: the cursor
is their count, capped at the capacity, and the buffer in progress starts
with them. -/
def Asm (cfg : Config) (s : State) (acc : List Int) : Prop :=
  s.cur = min acc.length cfg.CONFIG_BOOT_MAX_LINE_INPUT_LEN ∧
  (s.cmd = none → acc = []) ∧
  ∀ b, s.cmd = some b →
    (buf s b).line.take s.cur = acc.take cfg.CONFIG_BOOT_MAX_LINE_INPUT_LEN

/-- The state `s1` differs from `s` outside the queue of ready lines, the
cursor and the buffer in progress at most in buffer `b`, and its queue of free
buffers is `av`. -/
structure Touch (s s1 : State) (b : Nat) (av : List Nat) : Prop where
  avail : s1.avail_queue = av
  gcmd : s1.getline_cmd = s.getline_cmd
  others : ∀ b1, b1 ≠ b → buf s1 b1 = buf s b1

/-! ## Runs observed by the reader -/

/-- The final state of a sequence of calls and what each reader call
returned, in call order: the array `*line` points to (or `none` for `NULL`)
and the returned length. There is no result when a call dereferences `NULL`. -/
def run_results (cfg : Config) :
    List Ev → State → Option (State × List (Option (List Int) × Int))
  | [], s => some (s, [])
  | Ev.rx f :: rest, s =>
    match can_rx_cb cfg f s with
    | none => none
    | some s1 => run_results cfg rest s1
  | Ev.getline :: rest, s =>
    match run_results cfg rest (boot_can_fifo_getline s).1 with
    | none => none
    | some (sfin, rs) =>
      some (sfin,
        ((boot_can_fifo_getline s).2.1.map
            (fun b => (buf (boot_can_fifo_getline s).1 b).line),
          (boot_can_fifo_getline s).2.2) :: rs)

/-- The lines among the results of the reader: for each result with a line
pointer, the first `len` bytes it points to, and `len`. -/
def lines_read (rs : List (Option (List Int) × Int)) : List (List Int × Int) :=
  rs.filterMap (fun r => r.1.map (fun arr => (arr.take r.2.toNat, r.2)))

/-- The bytes delivered by the frames of a sequence of calls, in order. -/
def rx_stream : List Ev → List Int
  | [] => []
  | Ev.rx f :: rest => payload f ++ rx_stream rest
  | Ev.getline :: rest => rx_stream rest

/-- The producer never finds `avail_queue` empty: at every callback entered
without a buffer in progress, a free buffer is there. -/
def never_exhausted (cfg : Config) : List Ev → State → Bool
  | [], _ => true
  | Ev.rx f :: rest, s =>
    (s.cmd.isSome || !s.avail_queue.isEmpty) &&
      (match can_rx_cb cfg f s with
       | none => true
       | some s1 => never_exhausted cfg rest s1)
  | Ev.getline :: rest, s => never_exhausted cfg rest (boot_can_fifo_getline s).1

/-- The state `s` holds the bytes `acc` of the line in progress and, in
`lines_queue`, the lines `Q` in order, each as the reader is to see it. -/
def Sim (cfg : Config) (s : State) (acc : List Int) (Q : List (List Int)) : Prop :=
  WF cfg s ∧ Asm cfg s acc ∧
  s.lines_queue.map (view s) = Q.map (stored cfg.CONFIG_BOOT_MAX_LINE_INPUT_LEN)

/-- A configuration with two buffers of four bytes. -/
def cfg4 : Config :=
  { CONFIG_BOOT_MAX_LINE_INPUT_LEN := 4
    CONFIG_BOOT_LINE_BUFS := 2
    CONFIG_MCUBOOT_CAN_RX_ID := 0x701
    CONFIG_MCUBOOT_CAN_TX_ID := 0x702 }

/-- The state of `cfg16` after the lines `"hi\n"` and `"yo\n"` were received
and the reader was called once: buffer 0 is checked out, buffer 1 is ready,
no buffer is free. -/
def state_exhausted : State :=
  { line_bufs := [⟨3, [104, 105, 10, 0, 0, 0, 0, 0, 0, 0, 0, 0, 0, 0, 0, 0]⟩,
                  ⟨3, [121, 111, 10, 0, 0, 0, 0, 0, 0, 0, 0, 0, 0, 0, 0, 0]⟩]
    avail_queue := []
    lines_queue := [1]
    cur := 0
    cmd := none
    getline_cmd := some 0 }

/-- A configuration whose two line buffers hold `2 ^ 16` bytes each. -/
def cfg64k : Config :=
  { CONFIG_BOOT_MAX_LINE_INPUT_LEN := 65536
    CONFIG_BOOT_LINE_BUFS := 2
    CONFIG_MCUBOOT_CAN_RX_ID := 0x701
    CONFIG_MCUBOOT_CAN_TX_ID := 0x702 }

/-- A frame of eight zero bytes with the receive identifier of `cfg64k`. -/
def zeros8 : can_frame := rx16 (List.replicate 8 0)

/-! ## Shape of the lines and the stores of the callback -/

/-- Shape of a published line in a buffer of capacity `C`: its length is
between 1 and `C`, no `'\n'` stands below index `len - 1`, and `'\n'` stands at
index `len - 1` when `len < C`. -/
def Shape (C : Nat) (li : line_input) : Prop :=
  1 ≤ li.len ∧ li.len ≤ C ∧
  (∀ i : Nat, (i : Int) < li.len - 1 → li.line[i]? ≠ some 10) ∧
  (li.len < C → li.line[(li.len - 1).toNat]? = some 10)

/-- Every buffer in `lines_queue` has the shape of a published line, and the
buffer in progress holds no `'\n'` below the cursor. -/
structure LineInv (cfg : Config) (s : State) : Prop where
  shaped : ∀ b ∈ s.lines_queue, Shape cfg.CONFIG_BOOT_MAX_LINE_INPUT_LEN (buf s b)
  clean : ∀ b, s.cmd = some b → ∀ i : Nat, i < s.cur → (buf s b).line[i]? ≠ some 10

/-- The stores `cmd->line[cur++] = byte` executed by the loop of `can_rx_cb`
on the given bytes, in order: for each, the value of `cmd` and the index `cur`
at the store. The loop is followed as in `rx_loop`, up to its end or to the
iteration that dereferences `NULL`. -/
def rx_loop_writes (cfg : Config) : List Int → State → List (Option Nat × Nat)
  | [], _ => []
  | byte :: rest, s =>
    let w : List (Option Nat × Nat) :=
      if s.cur < cfg.CONFIG_BOOT_MAX_LINE_INPUT_LEN then [(s.cmd, s.cur)] else []
    match rx_byte cfg s byte with
    | none => w
    | some s1 => w ++ rx_loop_writes cfg rest s1

/-- The stores `cmd->line[cur++] = byte` executed by one call of `can_rx_cb`. -/
def can_rx_cb_writes (cfg : Config) (frame : can_frame) (s : State) :
    List (Option Nat × Nat) :=
  if frame.id = cfg.CONFIG_MCUBOOT_CAN_RX_ID then
    match s.cmd with
    | none =>
      match sys_slist_get s.avail_queue with
      | (none, _) => []
      | (some node, rest) =>
        rx_loop_writes cfg (frame.data.take frame.dlc)
          { s with avail_queue := rest, cmd := some node }
    | some _ => rx_loop_writes cfg (frame.data.take frame.dlc) s
  else []

/-- The state of `cfg4` after the line `"abcde\n"`, longer than the capacity,
was received: buffer 0 is ready with `len = 4` and no terminator. -/
def state_truncated : State :=
  { line_bufs := [⟨4, [97, 98, 99, 100]⟩, ⟨0, [0, 0, 0, 0]⟩]
    avail_queue := [1]
    lines_queue := [0]
    cur := 0
    cmd := none
    getline_cmd := none }
/-! ## Conservation of the buffers along fault-free calls -/

theorem init_loop_eq (n i : Nat) (q : List Nat) :
    init_loop n i q = q ++ List.range' i n := by
  induction n generalizing i q with
  | zero => simp [init_loop]
  | succ n ih => simp [init_loop, ih, sys_slist_append, List.range'_succ]

theorem owners_init_state (cfg : Config) :
    owners (init_state cfg) = List.range cfg.CONFIG_BOOT_LINE_BUFS := by
  simp [owners, init_state, boot_console_init, boot_state, init_loop_eq, sys_slist_init,
    List.range_eq_range']

theorem rx_byte_owners {cfg : Config} {s s1 : State} {c : Int}
    (h : rx_byte cfg s c = some s1) : owners s1 = owners s := by
  unfold rx_byte at h
  rcases hcmd : s.cmd with _ | b
  · by_cases hc : s.cur < cfg.CONFIG_BOOT_MAX_LINE_INPUT_LEN
    · simp [hc, hcmd] at h
    · by_cases h10 : c = 10
      · simp [hc, hcmd, h10] at h
      · simp [hc, hcmd, h10] at h
        rw [← h]
  · by_cases hc : s.cur < cfg.CONFIG_BOOT_MAX_LINE_INPUT_LEN <;> by_cases h10 : c = 10 <;>
      simp [hc, hcmd, h10] at h <;> rw [← h] <;> simp [owners, hcmd, sys_slist_append]

theorem rx_loop_owners {cfg : Config} {bytes : List Int} {s s1 : State}
    (h : rx_loop cfg bytes s = some s1) : owners s1 = owners s := by
  induction bytes generalizing s with
  | nil => simp [rx_loop] at h; rw [h]
  | cons c rest ih =>
    unfold rx_loop at h
    rcases hb : rx_byte cfg s c with _ | s2
    · simp [hb] at h
    · simp [hb] at h
      rw [ih h, rx_byte_owners hb]

theorem can_rx_cb_owners {cfg : Config} {f : can_frame} {s s1 : State}
    (h : can_rx_cb cfg f s = some s1) : (owners s1).Perm (owners s) := by
  unfold can_rx_cb at h
  by_cases hid : f.id = cfg.CONFIG_MCUBOOT_CAN_RX_ID
  · rcases hcmd : s.cmd with _ | b
    · rcases hav : s.avail_queue with _ | ⟨n, rest⟩
      · simp [hid, hcmd, hav, sys_slist_get] at h
        rw [h]
      · simp [hid, hcmd, hav, sys_slist_get] at h
        rw [rx_loop_owners h]
        rw [List.perm_iff_count]
        intro a
        simp [owners, hcmd, hav, List.count_cons]
        omega
    · simp [hid, hcmd] at h
      rw [rx_loop_owners h]
  · simp [hid] at h
    rw [h]

theorem getline_owners {s : State} (hnd : (owners s).Nodup) :
    (owners (boot_can_fifo_getline s).1).Perm (owners s) := by
  have key : ∀ c, s.getline_cmd = some c → sys_slist_peek_tail s.avail_queue ≠ some c := by
    intro c hc hp
    have hmem : c ∈ s.avail_queue := List.mem_of_getLast?_eq_some hp
    have hcnt : List.count c (owners s) ≤ 1 := List.nodup_iff_count_le_one.mp hnd c
    have h1 : 0 < List.count c s.avail_queue := List.count_pos_iff.mpr hmem
    simp [owners, hc, List.count_append] at hcnt
    omega
  rw [List.perm_iff_count]
  intro a
  rcases hg : s.getline_cmd with _ | c <;> rcases hl : s.lines_queue with _ | ⟨n, rest⟩
  · simp [boot_can_fifo_getline, owners, hg, hl, sys_slist_get]
  · simp [boot_can_fifo_getline, owners, hg, hl, sys_slist_get, List.count_cons]
    omega
  · have := key c hg
    simp [boot_can_fifo_getline, owners, hg, hl, sys_slist_get, this, sys_slist_append,
      List.count_cons]
  · have := key c hg
    simp [boot_can_fifo_getline, owners, hg, hl, sys_slist_get, this, sys_slist_append,
      List.count_cons]
    omega

/-! ## Stores into the buffer array -/

theorem length_store_line (bufs : List line_input) (b i : Nat) (v : Int) :
    (store_line bufs b i v).length = bufs.length := by
  unfold store_line
  split <;> simp

theorem length_store_len (bufs : List line_input) (b : Nat) (n : Int) :
    (store_len bufs b n).length = bufs.length := by
  unfold store_len
  split <;> simp

theorem getD_store_line_ne (bufs : List line_input) {b b1 : Nat} (i : Nat) (v : Int)
    (d : line_input) (h : b1 ≠ b) :
    (store_line bufs b i v).getD b1 d = bufs.getD b1 d := by
  unfold store_line
  split
  · simp [List.getD_eq_getElem?_getD, List.getElem?_set, Ne.symm h]
  · rfl

theorem getD_store_len_ne (bufs : List line_input) {b b1 : Nat} (n : Int)
    (d : line_input) (h : b1 ≠ b) :
    (store_len bufs b n).getD b1 d = bufs.getD b1 d := by
  unfold store_len
  split
  · simp [List.getD_eq_getElem?_getD, List.getElem?_set, Ne.symm h]
  · rfl

theorem getD_store_line_eq (bufs : List line_input) {b : Nat} (i : Nat) (v : Int)
    (d : line_input) (h : b < bufs.length) :
    (store_line bufs b i v).getD b d =
      { len := (bufs.getD b d).len, line := (bufs.getD b d).line.set i v } := by
  unfold store_line
  have hg : bufs.get? b = some bufs[b] := by simp [List.getElem?_eq_getElem h]
  rw [hg]
  simp [List.getD_eq_getElem?_getD, List.getElem?_set, h, List.getElem?_eq_getElem h]

theorem getD_store_len_eq (bufs : List line_input) {b : Nat} (n : Int)
    (d : line_input) (h : b < bufs.length) :
    (store_len bufs b n).getD b d = { len := n, line := (bufs.getD b d).line } := by
  unfold store_len
  have hg : bufs.get? b = some bufs[b] := by simp [List.getElem?_eq_getElem h]
  rw [hg]
  simp [List.getD_eq_getElem?_getD, List.getElem?_set, h, List.getElem?_eq_getElem h]

theorem cap_store_line {C : Nat} {bufs : List line_input} (b i : Nat) (v : Int)
    (h : ∀ li ∈ bufs, li.line.length = C) :
    ∀ li ∈ store_line bufs b i v, li.line.length = C := by
  unfold store_line
  split
  · rename_i li0 hli0
    intro li hli
    rcases List.mem_or_eq_of_mem_set hli with h1 | h1
    · exact h li h1
    · subst h1
      have : li0 ∈ bufs := List.get?_mem hli0
      simpa using h li0 this
  · exact h

theorem cap_store_len {C : Nat} {bufs : List line_input} (b : Nat) (n : Int)
    (h : ∀ li ∈ bufs, li.line.length = C) :
    ∀ li ∈ store_len bufs b n, li.line.length = C := by
  unfold store_len
  split
  · rename_i li0 hli0
    intro li hli
    rcases List.mem_or_eq_of_mem_set hli with h1 | h1
    · exact h li h1
    · subst h1
      have : li0 ∈ bufs := List.get?_mem hli0
      simpa using h li0 this
  · exact h

theorem take_set_succ (l : List Int) (i : Nat) (v : Int) (h : i < l.length) :
    (l.set i v).take (i + 1) = l.take i ++ [v] := by
  induction l generalizing i with
  | nil => simp at h
  | cons a l ih =>
    cases i with
    | zero => simp
    | succ i =>
      simp at h
      simp [ih i h]

/-! ## Well-formedness is kept by every call that returns -/

theorem PoolInv.nodup {cfg : Config} {s : State} (h : PoolInv cfg s) : (owners s).Nodup :=
  (List.Perm.nodup_iff h).mpr (List.nodup_range _)

theorem PoolInv.lt {cfg : Config} {s : State} (h : PoolInv cfg s) {b : Nat}
    (hb : b ∈ owners s) : b < cfg.CONFIG_BOOT_LINE_BUFS :=
  List.mem_range.mp ((List.Perm.mem_iff h).mp hb)

theorem wf_init_state (cfg : Config) : WF cfg (init_state cfg) := by
  refine ⟨?_, ?_, ?_, ?_, ?_⟩
  · unfold PoolInv
    rw [owners_init_state]
  · simp [init_state, boot_console_init, boot_state]
  · intro li hli
    simp [init_state, boot_console_init, boot_state] at hli
    rw [hli.2]
    simp
  · intro _
    simp [init_state, boot_console_init, boot_state]
  · simp [init_state, boot_console_init, boot_state]

theorem wf_rx_byte {cfg : Config} {s s1 : State} {c : Int} (hwf : WF cfg s)
    (h : rx_byte cfg s c = some s1) : WF cfg s1 := by
  have hown := rx_byte_owners h
  refine ⟨?_, ?_, ?_, ?_, ?_⟩
  · unfold PoolInv
    rw [hown]
    exact hwf.pool
  all_goals
    unfold rx_byte at h
    rcases hcmd : s.cmd with _ | b <;>
      by_cases hc : s.cur < cfg.CONFIG_BOOT_MAX_LINE_INPUT_LEN <;>
      by_cases h10 : c = 10 <;>
      simp [hc, hcmd, h10] at h
  all_goals first
    | (rw [← h]; simp [length_store_line, length_store_len, hwf.nbufs]; done)
    | (rw [← h]; exact hwf.cap)
    | (rw [← h]; exact cap_store_line _ _ _ hwf.cap)
    | (rw [← h]; exact cap_store_len _ _ hwf.cap)
    | (rw [← h]; exact cap_store_len _ _ (cap_store_line _ _ _ hwf.cap))
    | (rw [← h]; intro hn; simp [hcmd] at hn; done)
    | (rw [← h]; intro _; exact hwf.idle hcmd)
    | (rw [← h]; simp; done)
    | (rw [← h]; exact hwf.cur_le)
    | (rw [← h]; simp; have := Nat.mod_le (s.cur + 1) 65536; omega)

theorem wf_rx_loop {cfg : Config} {bytes : List Int} {s s1 : State} (hwf : WF cfg s)
    (h : rx_loop cfg bytes s = some s1) : WF cfg s1 := by
  induction bytes generalizing s with
  | nil => simp [rx_loop] at h; rw [← h]; exact hwf
  | cons c rest ih =>
    unfold rx_loop at h
    rcases hb : rx_byte cfg s c with _ | s2
    · simp [hb] at h
    · simp [hb] at h
      exact ih (wf_rx_byte hwf hb) h

theorem wf_acquire {cfg : Config} {s : State} {n : Nat} {rest : List Nat} (hwf : WF cfg s)
    (hcmd : s.cmd = none) (hav : s.avail_queue = n :: rest) :
    WF cfg { s with avail_queue := rest, cmd := some n } := by
  refine ⟨?_, hwf.nbufs, hwf.cap, ?_, hwf.cur_le⟩
  · have hp := hwf.pool
    unfold PoolInv at hp ⊢
    refine List.Perm.trans ?_ hp
    rw [List.perm_iff_count]
    intro a
    simp [owners, hcmd, hav, List.count_cons]
    omega
  · intro hn
    simp at hn

theorem wf_can_rx_cb {cfg : Config} {f : can_frame} {s s1 : State} (hwf : WF cfg s)
    (h : can_rx_cb cfg f s = some s1) : WF cfg s1 := by
  unfold can_rx_cb at h
  by_cases hid : f.id = cfg.CONFIG_MCUBOOT_CAN_RX_ID
  · rcases hcmd : s.cmd with _ | b
    · rcases hav : s.avail_queue with _ | ⟨n, rest⟩
      · simp [hid, hcmd, hav, sys_slist_get] at h
        rw [← h]; exact hwf
      · simp [hid, hcmd, hav, sys_slist_get] at h
        exact wf_rx_loop (wf_acquire hwf hcmd hav) h
    · simp [hid, hcmd] at h
      exact wf_rx_loop hwf h
  · simp [hid] at h
    rw [← h]; exact hwf

theorem getline_fields (s : State) :
    (boot_can_fifo_getline s).1.line_bufs = s.line_bufs ∧
    (boot_can_fifo_getline s).1.cur = s.cur ∧
    (boot_can_fifo_getline s).1.cmd = s.cmd := by
  unfold boot_can_fifo_getline
  rcases hl : s.lines_queue with _ | ⟨n, rest⟩ <;> simp [sys_slist_get]

theorem wf_getline {cfg : Config} {s : State} (hwf : WF cfg s) :
    WF cfg (boot_can_fifo_getline s).1 := by
  obtain ⟨h1, h2, h3⟩ := getline_fields s
  refine ⟨?_, ?_, ?_, ?_, ?_⟩
  · exact List.Perm.trans (getline_owners hwf.pool.nodup) hwf.pool
  · rw [h1]; exact hwf.nbufs
  · rw [h1]; exact hwf.cap
  · rw [h2, h3]; exact hwf.idle
  · rw [h2]; exact hwf.cur_le

theorem wf_step {cfg : Config} {e : Ev} {s s1 : State} (hwf : WF cfg s)
    (h : step cfg e s = some s1) : WF cfg s1 := by
  cases e with
  | rx f => exact wf_can_rx_cb hwf h
  | getline =>
    simp [step] at h
    rw [← h]
    exact wf_getline hwf

theorem wf_run {cfg : Config} {evs : List Ev} {s s1 : State} (hwf : WF cfg s)
    (h : run cfg evs s = some s1) : WF cfg s1 := by
  induction evs generalizing s with
  | nil => simp [run] at h; rw [← h]; exact hwf
  | cons e rest ih =>
    unfold run at h
    rcases hs : step cfg e s with _ | s2
    · simp [hs] at h
    · simp [hs] at h
      exact ih (wf_step hwf hs) h

theorem wf_reachable {cfg : Config} {s : State} (h : Reachable cfg s) : WF cfg s := by
  induction h with
  | init => exact wf_init_state cfg
  | step e _ hs ih => exact wf_step ih hs

theorem wf_rx_run {cfg : Config} {fs : List can_frame} {s s1 : State} (hwf : WF cfg s)
    (h : rx_run cfg fs s = some s1) : WF cfg s1 := by
  induction fs generalizing s with
  | nil => simp [rx_run] at h; rw [← h]; exact hwf
  | cons f rest ih =>
    unfold rx_run at h
    rcases hs : can_rx_cb cfg f s with _ | s2
    · simp [hs] at h
    · simp [hs] at h
      exact ih (wf_can_rx_cb hwf hs) h

theorem reachable_run {cfg : Config} (evs : List Ev) :
    ∀ {s s1 : State}, Reachable cfg s → run cfg evs s = some s1 → Reachable cfg s1 := by
  induction evs with
  | nil =>
    intro s s1 hr h
    simp [run] at h
    rw [← h]
    exact hr
  | cons e evs ih =>
    intro s s1 hr h
    unfold run at h
    rcases hs : step cfg e s with _ | s2
    · simp [hs] at h
    · simp [hs] at h
      exact ih (Reachable.step e hr hs) h

theorem reachable_rx_run {cfg : Config} (fs : List can_frame) :
    ∀ {s s1 : State}, Reachable cfg s → rx_run cfg fs s = some s1 → Reachable cfg s1 := by
  induction fs with
  | nil =>
    intro s s1 hr h
    simp [rx_run] at h
    rw [← h]
    exact hr
  | cons f fs ih =>
    intro s s1 hr h
    unfold rx_run at h
    rcases hs : can_rx_cb cfg f s with _ | s2
    · simp [hs] at h
    · simp [hs] at h
      exact ih (Reachable.step (Ev.rx f) hr hs) h

/-! ## Bytes behind a terminator in one frame -/

theorem rx_byte_terminator {cfg : Config} {s s1 : State}
    (h : rx_byte cfg s 10 = some s1) : s1.cmd = none ∧ s1.cur = 0 := by
  unfold rx_byte at h
  rcases hcmd : s.cmd with _ | b <;>
    by_cases hc : s.cur < cfg.CONFIG_BOOT_MAX_LINE_INPUT_LEN <;>
    simp [hc, hcmd] at h <;> rw [← h] <;> simp

theorem rx_byte_idle_faults {cfg : Config} {s : State} (c : Int)
    (hC : 0 < cfg.CONFIG_BOOT_MAX_LINE_INPUT_LEN) (hcmd : s.cmd = none) (hcur : s.cur = 0) :
    rx_byte cfg s c = none := by
  simp [rx_byte, hcmd, hcur, hC]

/-- In any state, the loop of `can_rx_cb` over bytes that hold a `'\n'` with a
byte behind it dereferences `NULL`, when the capacity is not zero. -/
theorem rx_loop_behind_terminator (cfg : Config)
    (hC : 0 < cfg.CONFIG_BOOT_MAX_LINE_INPUT_LEN) (pre post : List Int) (c : Int) (s : State) :
    rx_loop cfg (pre ++ 10 :: c :: post) s = none := by
  induction pre generalizing s with
  | nil =>
    simp only [List.nil_append, rx_loop]
    rcases hb : rx_byte cfg s 10 with _ | s1
    · rfl
    · obtain ⟨h1, h2⟩ := rx_byte_terminator hb
      simp [rx_byte_idle_faults c hC h1 h2]
  | cons a pre ih =>
    simp only [List.cons_append, rx_loop]
    rcases hb : rx_byte cfg s a with _ | s1
    · rfl
    · exact ih s1

/-- A frame with the receive identifier whose bytes hold a `'\n'` with a byte
behind it makes `can_rx_cb` dereference `NULL`, whenever the callback gets to
its loop (a buffer is in progress or a free one can be claimed). -/
theorem can_rx_cb_behind_terminator (cfg : Config)
    (hC : 0 < cfg.CONFIG_BOOT_MAX_LINE_INPUT_LEN) (f : can_frame) (pre post : List Int)
    (c : Int) (s : State) (hid : f.id = cfg.CONFIG_MCUBOOT_CAN_RX_ID)
    (hbytes : f.data.take f.dlc = pre ++ 10 :: c :: post)
    (hbuf : s.cmd ≠ none ∨ s.avail_queue ≠ []) :
    can_rx_cb cfg f s = none := by
  unfold can_rx_cb
  rcases hcmd : s.cmd with _ | b
  · rcases hav : s.avail_queue with _ | ⟨n, rest⟩
    · simp [hcmd, hav] at hbuf
    · simp [hid, sys_slist_get, hbytes, rx_loop_behind_terminator cfg hC]
  · simp [hid, hbytes, rx_loop_behind_terminator cfg hC]

/-- Conservation along every run in which each call returns: the holders of
buffers hold each of the `N` buffers once, and the counts add up to `N`. -/
theorem pool_inv_of_run (cfg : Config) (evs : List Ev) (s : State)
    (h : run cfg evs (init_state cfg) = some s) :
    PoolInv cfg s ∧ (owners s).Nodup ∧
    s.avail_queue.length + s.lines_queue.length + s.cmd.toList.length
      + s.getline_cmd.toList.length = cfg.CONFIG_BOOT_LINE_BUFS := by
  have hwf := wf_run (wf_init_state cfg) h
  refine ⟨hwf.pool, hwf.pool.nodup, ?_⟩
  have hl := List.Perm.length_eq hwf.pool
  simp [owners, List.length_append] at hl
  omega

/-- C1, at the failing input: from the state left by `boot_console_init` (two
buffers of sixteen bytes), one `can_rx_cb` call on the frame `"a\n\n"` with the
receive identifier dereferences `NULL` at the byte behind the first `'\n'`, so
the call leaves no state in which the buffers are conserved. -/
theorem C1_no_conserved_state_after_frame_with_bytes_behind_terminator :
    ¬ ∃ s, run cfg16 [Ev.rx (rx16 [97, 10, 10])] (init_state cfg16) = some s ∧
      PoolInv cfg16 s := by
  have h : run cfg16 [Ev.rx (rx16 [97, 10, 10])] (init_state cfg16) = none := by decide
  simp [h]

/-- C3, at the failing input: in the state left by `boot_console_init` (two
buffers of sixteen bytes, one of them still free after the first is claimed),
`can_rx_cb` on the frame `"a\nb"` with the receive identifier does not store
`'b'` in a newly acquired buffer: it dereferences `NULL` at that byte. -/
theorem C3_byte_behind_terminator_dereferences_null :
    (init_state cfg16).avail_queue = [0, 1] ∧
    can_rx_cb cfg16 (rx16 [97, 10, 98]) (init_state cfg16) = none := by
  decide

/-! ## The reader with and without a ready line -/

theorem getline_empty {cfg : Config} {s : State} (hinv : PoolInv cfg s)
    (hq : s.lines_queue = []) :
    boot_can_fifo_getline s =
      ({ s with avail_queue := s.avail_queue ++ s.getline_cmd.toList, getline_cmd := none },
        none, 0) := by
  have hnd := hinv.nodup
  rcases hg : s.getline_cmd with _ | c
  · simp [boot_can_fifo_getline, hg, hq, sys_slist_get]
  · have hp : sys_slist_peek_tail s.avail_queue ≠ some c := by
      intro hp
      have hmem : c ∈ s.avail_queue := List.mem_of_getLast?_eq_some hp
      have hcnt : List.count c (owners s) ≤ 1 := List.nodup_iff_count_le_one.mp hnd c
      have h1 : 0 < List.count c s.avail_queue := List.count_pos_iff.mpr hmem
      simp [owners, hg, List.count_append] at hcnt
      omega
    simp [boot_can_fifo_getline, hg, hq, sys_slist_get, hp, sys_slist_append]

theorem getline_ready {s : State} {b : Nat} {rest : List Nat} (hq : s.lines_queue = b :: rest) :
    ∃ s1, boot_can_fifo_getline s = (s1, some b, (buf s b).len) ∧
      s1.line_bufs = s.line_bufs ∧ s1.lines_queue = rest ∧ s1.getline_cmd = some b ∧
      s1.cmd = s.cmd ∧ s1.cur = s.cur := by
  simp [boot_can_fifo_getline, hq, sys_slist_get]

/-- C10: in a reachable state whose `lines_queue` is empty,
`boot_can_fifo_getline` returns length 0 and a null line pointer, and
`console_read` returns 0 with `newline` 0 and the caller's array unchanged;
the state changes only in that the buffer handed out before (if any) is
appended to `avail_queue` and is no longer checked out: `lines_queue` stays
empty, the buffer in progress, the cursor and the buffers are untouched. -/
theorem C10_no_line_ready (cfg : Config) (s : State) (str : List Int) (str_size : Int)
    (hr : Reachable cfg s) (hq : s.lines_queue = []) :
    boot_can_fifo_getline s =
      ({ s with avail_queue := s.avail_queue ++ s.getline_cmd.toList, getline_cmd := none },
        none, 0) ∧
    console_read s str str_size =
      some ({ s with avail_queue := s.avail_queue ++ s.getline_cmd.toList,
                     getline_cmd := none }, str, 0, 0) ∧
    (boot_can_fifo_getline s).1.lines_queue = [] ∧
    (boot_can_fifo_getline s).1.cmd = s.cmd ∧
    (boot_can_fifo_getline s).1.cur = s.cur ∧
    (boot_can_fifo_getline s).1.line_bufs = s.line_bufs ∧
    (boot_can_fifo_getline s).1.getline_cmd = none := by
  have h := getline_empty (wf_reachable hr).pool hq
  refine ⟨h, ?_, ?_, ?_, ?_, ?_, ?_⟩
  · simp [console_read, h]
  all_goals simp [h, hq]

theorem C10_no_line_ready_witness :
    Reachable cfg16 state_checked_out ∧ state_checked_out.lines_queue = [] ∧
    boot_can_fifo_getline state_checked_out =
      ({ state_checked_out with avail_queue := [1, 0], getline_cmd := none }, none, 0) ∧
    console_read state_checked_out [7, 7, 7, 7] 4 =
      some ({ state_checked_out with avail_queue := [1, 0], getline_cmd := none },
        [7, 7, 7, 7], 0, 0) :=
  have hr : Reachable cfg16 state_checked_out :=
    reachable_run [Ev.rx (rx16 [104, 105, 10]), Ev.getline] Reachable.init (by decide)
  have h := C10_no_line_ready cfg16 state_checked_out [7, 7, 7, 7] 4 hr rfl
  ⟨hr, rfl, h.1, h.2.1⟩

/-- C9: when the head of `lines_queue` holds a line of length `len` (a length
within the buffer), on a caller's array of at least `str_size >= 1` elements
`console_read` copies the first `m = min(len, str_size - 1)` bytes of the line
to `str[0 .. m-1]`, stores `0` at `str[m]`, leaves every index above `m`
untouched, sets `newline` to 1 and returns `m + 1`, which is at most
`str_size`. -/
theorem C9_console_read_line_ready (s : State) (b : Nat) (rest : List Nat) (str : List Int)
    (str_size : Int) (hq : s.lines_queue = b :: rest)
    (hlen : 0 ≤ (buf s b).len) (hline : (buf s b).len.toNat ≤ (buf s b).line.length)
    (hsz : 1 ≤ str_size) (hstr : str_size ≤ str.length) :
    ∃ (m : Nat) (str1 : List Int),
      (m : Int) = min (buf s b).len (str_size - 1) ∧
      console_read s str str_size =
        some ((boot_can_fifo_getline s).1, str1, 1, (m : Int) + 1) ∧
      str1.length = str.length ∧
      str1.take m = (buf s b).line.take m ∧
      str1[m]? = some 0 ∧
      (∀ i : Nat, m < i → str1[i]? = str[i]?) ∧
      (m : Int) + 1 ≤ str_size := by
  obtain ⟨s1, hg, hb, -, -, -, -⟩ := getline_ready hq
  have hbuf : buf s1 b = buf s b := by simp [buf, hb]
  refine ⟨(min (buf s b).len (str_size - 1)).toNat, ?_⟩
  have hm0 : 0 ≤ min (buf s b).len (str_size - 1) := by
    apply le_min hlen; omega
  have hmN : ((min (buf s b).len (str_size - 1)).toNat : Int) = min (buf s b).len (str_size - 1) :=
    Int.toNat_of_nonneg hm0
  have hif : (if (buf s b).len > str_size - 1 then str_size - 1 else (buf s b).len)
      = min (buf s b).len (str_size - 1) := by
    split <;> omega
  generalize hmdef : (min (buf s b).len (str_size - 1)).toNat = m at hmN
  have hm1 : m ≤ (buf s b).line.length := by omega
  have hm2 : m < str.length := by omega
  have hcond : 0 ≤ min (buf s b).len (str_size - 1) ∧ m ≤ (buf s b).line.length ∧ m < str.length :=
    ⟨hm0, hm1, hm2⟩
  refine ⟨((buf s b).line.take m ++ str.drop m).set m 0, hmN, ?_, ?_, ?_, ?_, ?_, ?_⟩
  · simp only [console_read, hg, hbuf, hif, hmdef]
    simp [hcond, hmN]
  · simp; omega
  · have hA : ((buf s b).line.take m).length = m := by simp; omega
    rw [List.set_take, List.take_append_of_le_length (by omega),
      List.take_of_length_le (by omega), List.set_eq_of_length_le (by omega)]
  · have hX : m < ((buf s b).line.take m ++ str.drop m).length := by simp; omega
    rw [List.getElem?_set_self hX]
  · intro i hi
    have hA : ((buf s b).line.take m).length = m := by simp; omega
    rw [List.getElem?_set_ne (by omega), List.getElem?_append_right (by omega), hA,
      List.getElem?_drop]
    congr 1
    omega
  · omega

theorem C9_console_read_line_ready_witness :
    state_line_ready.lines_queue = 0 :: [] ∧
    0 ≤ (buf state_line_ready 0).len ∧
    (buf state_line_ready 0).len.toNat ≤ (buf state_line_ready 0).line.length ∧
    (1 : Int) ≤ 3 ∧ (3 : Int) ≤ ([7, 7, 7, 7] : List Int).length ∧
    ∃ (m : Nat) (str1 : List Int),
      (m : Int) = min (buf state_line_ready 0).len (3 - 1) ∧
      console_read state_line_ready [7, 7, 7, 7] 3 =
        some ((boot_can_fifo_getline state_line_ready).1, str1, 1, (m : Int) + 1) ∧
      str1.length = ([7, 7, 7, 7] : List Int).length ∧
      str1.take m = (buf state_line_ready 0).line.take m ∧
      str1[m]? = some 0 ∧
      (∀ i : Nat, m < i → str1[i]? = ([7, 7, 7, 7] : List Int)[i]?) ∧
      (m : Int) + 1 ≤ 3 :=
  ⟨rfl, by decide, by decide, by decide, by decide,
    C9_console_read_line_ready state_line_ready 0 [] [7, 7, 7, 7] 3 rfl (by decide) (by decide)
      (by decide) (by decide)⟩

theorem getline_avail {cfg : Config} {s : State} (hinv : PoolInv cfg s) :
    (boot_can_fifo_getline s).1.avail_queue = s.avail_queue ++ s.getline_cmd.toList := by
  rcases hg : s.getline_cmd with _ | c
  · rcases hl : s.lines_queue with _ | ⟨n, rest⟩ <;>
      simp [boot_can_fifo_getline, hg, hl, sys_slist_get]
  · have hp : sys_slist_peek_tail s.avail_queue ≠ some c := by
      intro hp
      have hmem : c ∈ s.avail_queue := List.mem_of_getLast?_eq_some hp
      have hcnt : List.count c (owners s) ≤ 1 :=
        List.nodup_iff_count_le_one.mp hinv.nodup c
      have h1 : 0 < List.count c s.avail_queue := List.count_pos_iff.mpr hmem
      simp [owners, hg, List.count_append] at hcnt
      omega
    rcases hl : s.lines_queue with _ | ⟨n, rest⟩ <;>
      simp [boot_can_fifo_getline, hg, hl, sys_slist_get, hp, sys_slist_append]


/-! ## The writer -/

theorem send_loop_nonpos (cfg : Config) (frame : can_frame) (str : List Int) (cnt : Int)
    (h : cnt ≤ 0) : send_loop cfg frame str cnt = [] := by
  rw [send_loop]
  simp [not_lt.mpr h]

theorem send_loop_pos (cfg : Config) (frame : can_frame) (str : List Int) (n : Nat)
    (h : 0 < n) :
    send_loop cfg frame str (n : Int) =
      { id := cfg.CONFIG_MCUBOOT_CAN_TX_ID
        dlc := min n 8
        flags := if cfg.CONFIG_MCUBOOT_CAN_TX_ID > CAN_STD_ID_MASK then CAN_FILTER_IDE else 0
        data := str.take (min n 8) ++ frame.data.drop (min n 8) } ::
      send_loop cfg
        { id := cfg.CONFIG_MCUBOOT_CAN_TX_ID
          dlc := min n 8
          flags := if cfg.CONFIG_MCUBOOT_CAN_TX_ID > CAN_STD_ID_MASK then CAN_FILTER_IDE else 0
          data := str.take (min n 8) ++ frame.data.drop (min n 8) }
        (str.drop (min n 8)) ((n - min n 8 : Nat) : Int) := by
  rw [send_loop]
  have hpos : (n : Int) > 0 := by omega
  have hlen : (if (n : Int) > CAN_MAX_DLC then CAN_MAX_DLC else (n : Int)) = ((min n 8 : Nat) : Int) := by
    unfold CAN_MAX_DLC
    split <;> omega
  simp only [hpos, ↓reduceDIte, hlen, Int.toNat_ofNat]
  congr 2
  omega

/-- The frames sent for `n` bytes that hold no `EOF`: payloads, byte counts
and identifiers. -/
theorem send_loop_spec (cfg : Config) (n : Nat) :
    ∀ (frame : can_frame) (str : List Int), str.length = n →
      ((send_loop cfg frame str n).map payload).flatten = str ∧
      (send_loop cfg frame str n).map (fun f => f.dlc) =
        List.replicate (n / 8) 8 ++ (if n % 8 = 0 then [] else [n % 8]) ∧
      ∀ f ∈ send_loop cfg frame str n, f.id = cfg.CONFIG_MCUBOOT_CAN_TX_ID := by
  induction n using Nat.strong_induction_on with
  | _ n ih =>
    intro frame str hlen
    rcases Nat.eq_zero_or_pos n with h0 | hpos
    · subst h0
      have : str = [] := List.length_eq_zero.mp hlen
      simp [send_loop_nonpos, this]
    · rw [send_loop_pos cfg frame str n hpos]
      have hm : min n 8 ≤ str.length := by omega
      have hm0 : 0 < min n 8 := by omega
      obtain ⟨h1, h2, h3⟩ := ih (n - min n 8) (by omega) 
        { id := cfg.CONFIG_MCUBOOT_CAN_TX_ID
          dlc := min n 8
          flags := if cfg.CONFIG_MCUBOOT_CAN_TX_ID > CAN_STD_ID_MASK then CAN_FILTER_IDE else 0
          data := str.take (min n 8) ++ frame.data.drop (min n 8) }
        (str.drop (min n 8)) (by simp [hlen])
      refine ⟨?_, ?_, ?_⟩
      · simp only [List.map_cons, List.flatten_cons, h1, payload]
        rw [List.take_append_of_le_length (by simp; omega), List.take_take]
        simp
      · simp only [List.map_cons, h2]
        rcases Nat.lt_or_ge n 8 with h8 | h8
        · have e1 : min n 8 = n := by omega
          have e2 : n / 8 = 0 := by omega
          have e3 : n % 8 = n := by omega
          have e4 : n ≠ 0 := by omega
          simp [e1, e2, e3, e4]
        · have e1 : min n 8 = 8 := by omega
          have e2 : n / 8 = (n - 8) / 8 + 1 := by omega
          have e3 : (n - 8) % 8 = n % 8 := by omega
          simp [e1, e2, e3, List.replicate_succ]
      · intro f hf
        rcases List.mem_cons.mp hf with hf | hf
        · rw [hf]
        · exact h3 f hf

theorem eof_scan_none (str : List Int) (i cnt : Int) (h : ∀ c ∈ str, c ≠ EOF) :
    eof_scan str i cnt = -1 := by
  induction str generalizing i with
  | nil => rfl
  | cons c rest ih =>
    have hc : c ≠ EOF := h c (List.mem_cons_self _ _)
    have hr : ∀ c ∈ rest, c ≠ EOF := fun x hx => h x (List.mem_cons_of_mem _ hx)
    simp [eof_scan, hc, ih _ hr]

theorem eof_scan_found (pre post : List Int) (i cnt : Int) (h : ∀ c ∈ pre, c ≠ EOF)
    (hlt : i + pre.length < cnt) :
    eof_scan (pre ++ EOF :: post) i cnt = i + pre.length := by
  induction pre generalizing i with
  | nil =>
    have : i < cnt := by simpa using hlt
    simp [eof_scan, this]
  | cons c rest ih =>
    have hc : c ≠ EOF := h c (List.mem_cons_self _ _)
    have hr : ∀ c ∈ rest, c ≠ EOF := fun x hx => h x (List.mem_cons_of_mem _ hx)
    have hlt1 : i + 1 + rest.length < cnt := by
      simp only [List.length_cons, Nat.cast_add, Nat.cast_one] at hlt
      omega
    have hi : i < cnt := by omega
    show eof_scan (c :: (rest ++ EOF :: post)) i cnt = _
    rw [eof_scan]
    simp only [hi, ↓reduceIte, hc]
    rw [ih (i + 1) hr hlt1]
    simp only [List.length_cons, Nat.cast_add, Nat.cast_one]
    omega

theorem send_loop_take (cfg : Config) (n : Nat) :
    ∀ (frame : can_frame) (str : List Int),
      send_loop cfg frame str n = send_loop cfg frame (str.take n) n := by
  induction n using Nat.strong_induction_on with
  | _ n ih =>
    intro frame str
    rcases Nat.eq_zero_or_pos n with h0 | hpos
    · subst h0
      simp [send_loop_nonpos]
    · rw [send_loop_pos cfg frame str n hpos, send_loop_pos cfg frame (str.take n) n hpos]
      have e1 : (str.take n).take (min n 8) = str.take (min n 8) := by
        rw [List.take_take]
        congr 1
        omega
      have e2 : (str.take n).drop (min n 8) = (str.drop (min n 8)).take (n - min n 8) := by
        rw [List.drop_take]
      rw [e1, e2]
      congr 1
      exact ih (n - min n 8) (by omega) _ _

/-- C7: for bytes `s` that hold no `EOF`, `console_write(s, cnt)` with
`cnt = |s|` hands `ceil(cnt / 8)` frames to `can_send` (none when `cnt = 0`),
each with identifier `CONFIG_MCUBOOT_CAN_TX_ID`; every frame but the last has
`dlc` 8, the last has `dlc` between 1 and 8, and the payloads in send order
concatenate to `s`. The byte counts are `8, ..., 8` followed by `cnt mod 8`
when that is not zero. -/
theorem C7_console_write_chunks (cfg : Config) (frame : can_frame) (s : List Int)
    (hs : ∀ c ∈ s, c ≠ EOF) :
    (console_write cfg frame s s.length).length = (s.length + 7) / 8 ∧
    (∀ f ∈ console_write cfg frame s s.length, f.id = cfg.CONFIG_MCUBOOT_CAN_TX_ID) ∧
    (∀ f ∈ (console_write cfg frame s s.length).dropLast, f.dlc = 8) ∧
    (∀ f, (console_write cfg frame s s.length).getLast? = some f → 1 ≤ f.dlc ∧ f.dlc ≤ 8) ∧
    ((console_write cfg frame s s.length).map payload).flatten = s ∧
    (console_write cfg frame s s.length).map (fun f => f.dlc) =
      List.replicate (s.length / 8) 8 ++ (if s.length % 8 = 0 then [] else [s.length % 8]) := by
  have hcw : console_write cfg frame s s.length = send_loop cfg frame s s.length := by
    simp [console_write, eof_scan_none s 0 _ hs]
  rw [hcw]
  obtain ⟨h1, h2, h3⟩ := send_loop_spec cfg s.length frame s rfl
  have hlen : (send_loop cfg frame s s.length).length = (s.length + 7) / 8 := by
    have := congrArg List.length h2
    rw [List.length_map] at this
    rw [this]
    by_cases h0 : s.length % 8 = 0 <;> simp [h0] <;> omega
  refine ⟨hlen, h3, ?_, ?_, h1, h2⟩
  · intro f hf
    have hmem : f.dlc ∈ ((send_loop cfg frame s s.length).map (fun f => f.dlc)).dropLast := by
      rw [← List.map_dropLast]
      exact List.mem_map_of_mem _ hf
    rw [h2] at hmem
    by_cases h0 : s.length % 8 = 0
    · simp [h0] at hmem
      exact hmem.2
    · simp [h0] at hmem
      exact hmem.2
  · intro f hf
    have hl : ((send_loop cfg frame s s.length).map (fun f => f.dlc)).getLast? = some f.dlc := by
      rw [List.getLast?_map, hf]
      rfl
    rw [h2] at hl
    by_cases h0 : s.length % 8 = 0
    · simp [h0, List.getLast?_replicate] at hl
      omega
    · simp [h0] at hl
      omega

theorem C7_console_write_chunks_witness :
    (∀ c ∈ (List.range 20).map Int.ofNat, c ≠ EOF) ∧
    (console_write cfg16 ⟨0, 0, 0, List.replicate 8 0⟩ ((List.range 20).map Int.ofNat)
      ((List.range 20).map Int.ofNat).length).map (fun f => f.dlc) = [8, 8, 4] ∧
    (console_write cfg16 ⟨0, 0, 0, List.replicate 8 0⟩ ((List.range 20).map Int.ofNat)
      ((List.range 20).map Int.ofNat).length).length = 3 :=
  have hs : ∀ c ∈ (List.range 20).map Int.ofNat, c ≠ EOF := by decide
  have h := C7_console_write_chunks cfg16 ⟨0, 0, 0, List.replicate 8 0⟩
    ((List.range 20).map Int.ofNat) hs
  ⟨hs, h.2.2.2.2.2, h.1⟩

/-- C8: when `EOF` first occurs in `s` at index `k` (the bytes before it are
`pre`, `k = |pre|`), `console_write(s, |s|)` sends exactly what a write of the
`k` bytes `pre` sends: the payloads concatenate to `pre`, no byte at index
`k` or beyond is sent, and nothing at all is sent when `k = 0`. -/
theorem C8_console_write_stops_at_eof (cfg : Config) (frame : can_frame)
    (pre post : List Int) (hpre : ∀ c ∈ pre, c ≠ EOF) :
    console_write cfg frame (pre ++ EOF :: post) (pre ++ EOF :: post).length =
      console_write cfg frame pre pre.length ∧
    ((console_write cfg frame (pre ++ EOF :: post) (pre ++ EOF :: post).length).map
      payload).flatten = pre ∧
    (pre = [] →
      console_write cfg frame (pre ++ EOF :: post) (pre ++ EOF :: post).length = []) := by
  have hscan : eof_scan (pre ++ EOF :: post) 0 (pre ++ EOF :: post).length = pre.length := by
    rw [eof_scan_found pre post 0 _ hpre]
    · simp
    · simp only [List.length_append, List.length_cons, Nat.cast_add, Nat.cast_one]
      omega
  have hne : ((pre.length : Nat) : Int) ≠ -1 := by omega
  have h1 : console_write cfg frame (pre ++ EOF :: post) (pre ++ EOF :: post).length =
      send_loop cfg frame pre pre.length := by
    unfold console_write
    simp only [hscan, hne, ne_eq, not_false_eq_true, ↓reduceIte]
    rw [send_loop_take]
    simp
  have h2 : console_write cfg frame pre pre.length = send_loop cfg frame pre pre.length := by
    simp [console_write, eof_scan_none pre 0 _ hpre]
  refine ⟨by rw [h1, h2], ?_, ?_⟩
  · rw [h1]
    exact (send_loop_spec cfg pre.length frame pre rfl).1
  · intro he
    rw [h1, he]
    exact send_loop_nonpos cfg frame [] _ (by simp)

theorem C8_console_write_stops_at_eof_witness :
    (∀ c ∈ ([1, 2, 3] : List Int), c ≠ EOF) ∧
    console_write cfg16 ⟨0, 0, 0, List.replicate 8 0⟩ ([1, 2, 3] ++ EOF :: [5, 6])
        ([1, 2, 3] ++ EOF :: [5, 6]).length =
      console_write cfg16 ⟨0, 0, 0, List.replicate 8 0⟩ [1, 2, 3] ([1, 2, 3] : List Int).length ∧
    ((console_write cfg16 ⟨0, 0, 0, List.replicate 8 0⟩ ([1, 2, 3] ++ EOF :: [5, 6])
        ([1, 2, 3] ++ EOF :: [5, 6]).length).map payload).flatten = [1, 2, 3] :=
  have hs : ∀ c ∈ ([1, 2, 3] : List Int), c ≠ EOF := by decide
  have h := C8_console_write_stops_at_eof cfg16 ⟨0, 0, 0, List.replicate 8 0⟩ [1, 2, 3] [5, 6] hs
  ⟨hs, h.1, h.2.1⟩

/-! ## The assembler, byte by byte -/

theorem buf_store_line_ne {s s1 : State} {b b1 i : Nat} {v : Int}
    (h : s1.line_bufs = store_line s.line_bufs b i v) (hb1 : b1 ≠ b) :
    buf s1 b1 = buf s b1 := by
  unfold buf
  rw [h]
  exact getD_store_line_ne _ _ _ _ hb1

theorem buf_store_line_eq {s s1 : State} {b i : Nat} {v : Int}
    (h : s1.line_bufs = store_line s.line_bufs b i v) (hb : b < s.line_bufs.length) :
    buf s1 b = { len := (buf s b).len, line := (buf s b).line.set i v } := by
  unfold buf
  rw [h]
  exact getD_store_line_eq _ _ _ _ hb

theorem buf_store_len_ne {s s1 : State} {b b1 : Nat} {n : Int}
    (h : s1.line_bufs = store_len s.line_bufs b n) (hb1 : b1 ≠ b) :
    buf s1 b1 = buf s b1 := by
  unfold buf
  rw [h]
  exact getD_store_len_ne _ _ _ hb1

theorem buf_store_len_eq {s s1 : State} {b : Nat} {n : Int}
    (h : s1.line_bufs = store_len s.line_bufs b n) (hb : b < s.line_bufs.length) :
    buf s1 b = { len := n, line := (buf s b).line } := by
  unfold buf
  rw [h]
  exact getD_store_len_eq _ _ _ hb

theorem wf_cmd_lt {cfg : Config} {s : State} {b : Nat} (hwf : WF cfg s)
    (hcmd : s.cmd = some b) : b < s.line_bufs.length := by
  rw [hwf.nbufs]
  apply hwf.pool.lt
  simp [owners, hcmd]

theorem wf_line_length {cfg : Config} {s : State} {b : Nat} (hwf : WF cfg s)
    (hb : b < s.line_bufs.length) :
    (buf s b).line.length = cfg.CONFIG_BOOT_MAX_LINE_INPUT_LEN := by
  apply hwf.cap
  unfold buf
  rw [List.getD_eq_getElem _ _ hb]
  exact List.getElem_mem hb

/-- A byte that is not the terminator, with a buffer in progress. -/
theorem rx_byte_plain {cfg : Config} {s : State} {b : Nat} {acc : List Int} {c : Int}
    (hC : cfg.CONFIG_BOOT_MAX_LINE_INPUT_LEN < 65536) (hwf : WF cfg s)
    (hasm : Asm cfg s acc) (hcmd : s.cmd = some b) (hc : c ≠ 10) :
    ∃ s1, rx_byte cfg s c = some s1 ∧ s1.cmd = some b ∧
      s1.lines_queue = s.lines_queue ∧ Touch s s1 b s.avail_queue ∧
      (buf s1 b).len = (buf s b).len ∧ Asm cfg s1 (acc ++ [c]) := by
  obtain ⟨hcur, -, hline⟩ := hasm
  have hb := wf_cmd_lt hwf hcmd
  have hlen := wf_line_length hwf hb
  have h1 := hline b hcmd
  by_cases hlt : s.cur < cfg.CONFIG_BOOT_MAX_LINE_INPUT_LEN
  · have hmod : (s.cur + 1) % 65536 = s.cur + 1 := Nat.mod_eq_of_lt (by omega)
    have hal : acc.length = s.cur := by omega
    have hst : ({ s with line_bufs := store_line s.line_bufs b s.cur c,
                         cur := s.cur + 1 } : State).line_bufs
        = store_line s.line_bufs b s.cur c := rfl
    refine ⟨{ s with line_bufs := store_line s.line_bufs b s.cur c, cur := s.cur + 1 },
      ?_, hcmd, rfl, ⟨rfl, rfl, ?_⟩, ?_, ?_, ?_, ?_⟩
    · simp [rx_byte, hlt, hcmd, hc, hmod]
    · intro b1 hb1
      exact buf_store_line_ne hst hb1
    · rw [buf_store_line_eq hst hb]
    · show s.cur + 1 = min (acc ++ [c]).length cfg.CONFIG_BOOT_MAX_LINE_INPUT_LEN
      rw [List.length_append, List.length_singleton]
      omega
    · intro hn
      rw [hcmd] at hn
      exact absurd hn (by simp)
    · intro b2 hb2
      have hb2' : s.cmd = some b2 := hb2
      have e : b2 = b := by
        rw [hcmd] at hb2'
        exact (Option.some.inj hb2').symm
      rw [e, buf_store_line_eq hst hb]
      show ((buf s b).line.set s.cur c).take (s.cur + 1) = _
      rw [take_set_succ _ _ _ (by omega), h1, List.take_of_length_le (by omega),
        List.take_of_length_le (by rw [List.length_append, List.length_singleton]; omega)]
  · have hcC : s.cur = cfg.CONFIG_BOOT_MAX_LINE_INPUT_LEN := by
      have := hwf.cur_le
      omega
    refine ⟨s, ?_, hcmd, rfl, ⟨rfl, rfl, fun _ _ => rfl⟩, rfl, ?_, ?_, ?_⟩
    · simp [rx_byte, hlt, hc]
    · rw [List.length_append, List.length_singleton]
      omega
    · intro hn
      rw [hcmd] at hn
      exact absurd hn (by simp)
    · intro b2 hb2
      rw [hline b2 hb2, List.take_append_of_le_length (by omega)]

/-- The terminator, with a buffer in progress. -/
theorem rx_byte_eol {cfg : Config} {s : State} {b : Nat} {acc : List Int}
    (hC : cfg.CONFIG_BOOT_MAX_LINE_INPUT_LEN < 65536) (hwf : WF cfg s)
    (hasm : Asm cfg s acc) (hcmd : s.cmd = some b) :
    ∃ s1, rx_byte cfg s 10 = some s1 ∧ s1.cmd = none ∧ s1.cur = 0 ∧
      s1.lines_queue = s.lines_queue ++ [b] ∧ Touch s s1 b s.avail_queue ∧
      view s1 b = stored cfg.CONFIG_BOOT_MAX_LINE_INPUT_LEN (acc ++ [10]) ∧
      (buf s1 b).line.length = cfg.CONFIG_BOOT_MAX_LINE_INPUT_LEN := by
  obtain ⟨hcur, -, hline⟩ := hasm
  have hb := wf_cmd_lt hwf hcmd
  have hlen := wf_line_length hwf hb
  have h1 := hline b hcmd
  by_cases hlt : s.cur < cfg.CONFIG_BOOT_MAX_LINE_INPUT_LEN
  · have hmod : (s.cur + 1) % 65536 = s.cur + 1 := Nat.mod_eq_of_lt (by omega)
    have hal : acc.length = s.cur := by omega
    have hst1 : ({ s with line_bufs := store_line s.line_bufs b s.cur 10 } : State).line_bufs
        = store_line s.line_bufs b s.cur 10 := rfl
    have hb1 : b < ({ s with line_bufs := store_line s.line_bufs b s.cur 10 } :
        State).line_bufs.length := by
      rw [hst1, length_store_line]; exact hb
    have hst2 : ({ s with line_bufs := store_len (store_line s.line_bufs b s.cur 10) b
                            ((s.cur + 1 : Nat) : Int)
                          lines_queue := s.lines_queue ++ [b]
                          cur := 0
                          cmd := none } : State).line_bufs
        = store_len ({ s with line_bufs := store_line s.line_bufs b s.cur 10 } :
            State).line_bufs b ((s.cur + 1 : Nat) : Int) := rfl
    refine ⟨{ s with line_bufs := store_len (store_line s.line_bufs b s.cur 10) b
                        ((s.cur + 1 : Nat) : Int)
                     lines_queue := s.lines_queue ++ [b]
                     cur := 0
                     cmd := none }, ?_, rfl, rfl, rfl, ⟨rfl, rfl, ?_⟩, ?_, ?_⟩
    · simp [rx_byte, hlt, hcmd, hmod, sys_slist_append]
    · intro b1 hb1'
      rw [buf_store_len_ne hst2 hb1', buf_store_line_ne hst1 hb1']
    · unfold view stored
      rw [buf_store_len_eq hst2 hb1, buf_store_line_eq hst1 hb]
      show (((buf s b).line.set s.cur 10).take ((s.cur + 1 : Nat) : Int).toNat,
        ((s.cur + 1 : Nat) : Int)) = _
      rw [Int.toNat_ofNat, take_set_succ _ _ _ (by omega), h1,
        List.take_of_length_le (by omega),
        List.take_of_length_le (by rw [List.length_append, List.length_singleton]; omega),
        List.length_append, List.length_singleton]
      congr 2
      omega
    · rw [buf_store_len_eq hst2 hb1, buf_store_line_eq hst1 hb]
      show ((buf s b).line.set s.cur 10).length = _
      rw [List.length_set]
      exact hlen
  · have hcC : s.cur = cfg.CONFIG_BOOT_MAX_LINE_INPUT_LEN := by
      have := hwf.cur_le
      omega
    have hst : ({ s with line_bufs := store_len s.line_bufs b (s.cur : Int)
                         lines_queue := s.lines_queue ++ [b]
                         cur := 0
                         cmd := none } : State).line_bufs
        = store_len s.line_bufs b (s.cur : Int) := rfl
    refine ⟨{ s with line_bufs := store_len s.line_bufs b (s.cur : Int)
                     lines_queue := s.lines_queue ++ [b]
                     cur := 0
                     cmd := none }, ?_, rfl, rfl, rfl, ⟨rfl, rfl, ?_⟩, ?_, ?_⟩
    · simp [rx_byte, hlt, hcmd, sys_slist_append]
    · intro b1 hb1
      exact buf_store_len_ne hst hb1
    · unfold view stored
      rw [buf_store_len_eq hst hb]
      show ((buf s b).line.take ((s.cur : Nat) : Int).toNat, ((s.cur : Nat) : Int)) = _
      rw [Int.toNat_ofNat, h1, List.take_append_of_le_length (by omega),
        List.length_append, List.length_singleton]
      congr 2
      omega
    · rw [buf_store_len_eq hst hb]
      exact hlen

/-! ## The assembler, frame by frame -/

theorem Touch.trans {s s1 s2 : State} {b : Nat} {av1 av2 : List Nat}
    (h1 : Touch s s1 b av1) (h2 : Touch s1 s2 b av2) : Touch s s2 b av2 :=
  ⟨h2.avail, h2.gcmd.trans h1.gcmd, fun b1 hb1 => (h2.others b1 hb1).trans (h1.others b1 hb1)⟩

theorem rx_loop_append (cfg : Config) (a b : List Int) (s : State) :
    rx_loop cfg (a ++ b) s =
      match rx_loop cfg a s with
      | none => none
      | some s1 => rx_loop cfg b s1 := by
  induction a generalizing s with
  | nil => simp [rx_loop]
  | cons c a ih =>
    simp only [List.cons_append, rx_loop]
    rcases rx_byte cfg s c with _ | s2
    · rfl
    · exact ih s2

/-- Bytes without a terminator, with a buffer in progress. -/
theorem rx_loop_plain {cfg : Config} (hC : cfg.CONFIG_BOOT_MAX_LINE_INPUT_LEN < 65536)
    {b : Nat} (w : List Int) (hw : ∀ c ∈ w, c ≠ 10) :
    ∀ {s : State} {acc : List Int}, WF cfg s → Asm cfg s acc → s.cmd = some b →
      ∃ s1, rx_loop cfg w s = some s1 ∧ s1.cmd = some b ∧
        s1.lines_queue = s.lines_queue ∧ Touch s s1 b s.avail_queue ∧
        (buf s1 b).len = (buf s b).len ∧ Asm cfg s1 (acc ++ w) ∧ WF cfg s1 := by
  induction w with
  | nil =>
    intro s acc hwf hasm hcmd
    exact ⟨s, rfl, hcmd, rfl, ⟨rfl, rfl, fun _ _ => rfl⟩, rfl, by simpa using hasm, hwf⟩
  | cons c w ih =>
    intro s acc hwf hasm hcmd
    have hc : c ≠ 10 := hw c (List.mem_cons_self _ _)
    have hw1 : ∀ c ∈ w, c ≠ 10 := fun x hx => hw x (List.mem_cons_of_mem _ hx)
    obtain ⟨s1, e1, c1, l1, t1, n1, a1⟩ := rx_byte_plain hC hwf hasm hcmd hc
    have hwf1 := wf_rx_byte hwf e1
    obtain ⟨s2, e2, c2, l2, t2, n2, a2, hwf2⟩ := ih hw1 hwf1 a1 c1
    refine ⟨s2, ?_, c2, l2.trans l1, ?_, n2.trans n1, ?_, hwf2⟩
    · simp [rx_loop, e1, e2]
    · rw [t1.avail] at t2
      exact t1.trans t2
    · simpa using a2

/-- Bytes without a terminator followed by the terminator, with a buffer in
progress: the buffer is published with the line, cut at the capacity. -/
theorem rx_loop_line {cfg : Config} (hC : cfg.CONFIG_BOOT_MAX_LINE_INPUT_LEN < 65536)
    {b : Nat} (w : List Int) (hw : ∀ c ∈ w, c ≠ 10) {s : State} {acc : List Int}
    (hwf : WF cfg s) (hasm : Asm cfg s acc) (hcmd : s.cmd = some b) :
    ∃ s1, rx_loop cfg (w ++ [10]) s = some s1 ∧ s1.cmd = none ∧ s1.cur = 0 ∧
      s1.lines_queue = s.lines_queue ++ [b] ∧ Touch s s1 b s.avail_queue ∧
      view s1 b = stored cfg.CONFIG_BOOT_MAX_LINE_INPUT_LEN (acc ++ w ++ [10]) ∧
      (buf s1 b).line.length = cfg.CONFIG_BOOT_MAX_LINE_INPUT_LEN ∧ WF cfg s1 := by
  obtain ⟨s1, e1, c1, l1, t1, -, a1, hwf1⟩ := rx_loop_plain hC w hw hwf hasm hcmd
  obtain ⟨s2, e2, c2, u2, l2, t2, v2, n2⟩ := rx_byte_eol hC hwf1 a1 c1
  refine ⟨s2, ?_, c2, u2, ?_, ?_, v2, n2, wf_rx_byte hwf1 e2⟩
  · rw [rx_loop_append, e1]
    simp [rx_loop, e2]
  · rw [l2, l1]
  · rw [t1.avail] at t2
    exact t1.trans t2

theorem asm_acquire {cfg : Config} {s : State} {acc : List Int} {b : Nat} {av : List Nat}
    (hasm : Asm cfg s acc) (hcmd : s.cmd = none) :
    Asm cfg { s with avail_queue := av, cmd := some b } acc := by
  obtain ⟨hcur, hnone, -⟩ := hasm
  have hacc := hnone hcmd
  subst hacc
  refine ⟨hcur, fun h => rfl, fun b1 _ => ?_⟩
  have h0 : s.cur = 0 := by simpa using hcur
  show (buf _ b1).line.take s.cur = _
  rw [h0]
  simp

/-- A frame whose bytes hold no terminator, when a buffer is in progress or
can be claimed: the bytes are added to the line in progress. -/
theorem can_rx_cb_plain {cfg : Config} (hC : cfg.CONFIG_BOOT_MAX_LINE_INPUT_LEN < 65536)
    {s : State} {acc : List Int} {b : Nat} {av : List Nat} (f : can_frame)
    (hwf : WF cfg s) (hasm : Asm cfg s acc)
    (hb : (s.cmd = some b ∧ s.avail_queue = av) ∨ (s.cmd = none ∧ s.avail_queue = b :: av))
    (hid : f.id = cfg.CONFIG_MCUBOOT_CAN_RX_ID) (hw : ∀ c ∈ payload f, c ≠ 10) :
    ∃ s1, can_rx_cb cfg f s = some s1 ∧ s1.cmd = some b ∧
      s1.lines_queue = s.lines_queue ∧ Touch s s1 b av ∧
      (buf s1 b).len = (buf s b).len ∧ Asm cfg s1 (acc ++ payload f) ∧ WF cfg s1 := by
  rcases hb with ⟨hcmd, hav⟩ | ⟨hcmd, hav⟩
  · obtain ⟨s1, e1, c1, l1, t1, n1, a1, w1⟩ := rx_loop_plain hC (payload f) hw hwf hasm hcmd
    rw [hav] at t1
    refine ⟨s1, ?_, c1, l1, t1, n1, a1, w1⟩
    simp only [can_rx_cb, hid, hcmd, ↓reduceIte]
    exact e1
  · have hwf' := wf_acquire hwf hcmd hav
    have hasm' : Asm cfg { s with avail_queue := av, cmd := some b } acc :=
      asm_acquire hasm hcmd
    obtain ⟨s1, e1, c1, l1, t1, n1, a1, w1⟩ :=
      rx_loop_plain hC (payload f) hw hwf' hasm' rfl
    refine ⟨s1, ?_, c1, l1, ⟨t1.avail, t1.gcmd, t1.others⟩, n1, a1, w1⟩
    simp only [can_rx_cb, hid, hcmd, hav, sys_slist_get, ↓reduceIte]
    exact e1

/-- A frame whose bytes end a line, when a buffer is in progress or can be
claimed: the buffer is published with the line, cut at the capacity. -/
theorem can_rx_cb_line {cfg : Config} (hC : cfg.CONFIG_BOOT_MAX_LINE_INPUT_LEN < 65536)
    {s : State} {acc : List Int} {b : Nat} {av : List Nat} (f : can_frame) (w : List Int)
    (hwf : WF cfg s) (hasm : Asm cfg s acc)
    (hb : (s.cmd = some b ∧ s.avail_queue = av) ∨ (s.cmd = none ∧ s.avail_queue = b :: av))
    (hid : f.id = cfg.CONFIG_MCUBOOT_CAN_RX_ID) (hf : payload f = w ++ [10])
    (hw : ∀ c ∈ w, c ≠ 10) :
    ∃ s1, can_rx_cb cfg f s = some s1 ∧ s1.cmd = none ∧ s1.cur = 0 ∧
      s1.lines_queue = s.lines_queue ++ [b] ∧ Touch s s1 b av ∧
      view s1 b = stored cfg.CONFIG_BOOT_MAX_LINE_INPUT_LEN (acc ++ w ++ [10]) ∧
      (buf s1 b).line.length = cfg.CONFIG_BOOT_MAX_LINE_INPUT_LEN ∧ WF cfg s1 := by
  have hf' : f.data.take f.dlc = w ++ [10] := hf
  rcases hb with ⟨hcmd, hav⟩ | ⟨hcmd, hav⟩
  · obtain ⟨s1, e1, c1, u1, l1, t1, v1, n1, w1⟩ := rx_loop_line hC w hw hwf hasm hcmd
    rw [hav] at t1
    refine ⟨s1, ?_, c1, u1, l1, t1, v1, n1, w1⟩
    simp only [can_rx_cb, hid, hcmd, ↓reduceIte, hf']
    exact e1
  · have hwf' := wf_acquire hwf hcmd hav
    have hasm' : Asm cfg { s with avail_queue := av, cmd := some b } acc :=
      asm_acquire hasm hcmd
    obtain ⟨s1, e1, c1, u1, l1, t1, v1, n1, w1⟩ := rx_loop_line hC w hw hwf' hasm' rfl
    refine ⟨s1, ?_, c1, u1, l1, ⟨t1.avail, t1.gcmd, t1.others⟩, v1, n1, w1⟩
    simp only [can_rx_cb, hid, hcmd, hav, sys_slist_get, ↓reduceIte, hf']
    exact e1

/-- A line delivered in its own frames, the last of which ends with the
terminator, when a buffer is in progress or can be claimed: the buffer is
published with the line, cut at the capacity, and the assembler is idle. -/
theorem rx_run_line {cfg : Config} (hC : cfg.CONFIG_BOOT_MAX_LINE_INPUT_LEN < 65536)
    {b : Nat} {av : List Nat} (fs : List can_frame) (flast : can_frame) (w : List Int)
    (hfs : ∀ f ∈ fs, f.id = cfg.CONFIG_MCUBOOT_CAN_RX_ID ∧ ∀ c ∈ payload f, c ≠ 10)
    (hid : flast.id = cfg.CONFIG_MCUBOOT_CAN_RX_ID) (hf : payload flast = w ++ [10])
    (hw : ∀ c ∈ w, c ≠ 10) :
    ∀ {s : State} {acc : List Int}, WF cfg s → Asm cfg s acc →
      ((s.cmd = some b ∧ s.avail_queue = av) ∨ (s.cmd = none ∧ s.avail_queue = b :: av)) →
      ∃ s1, rx_run cfg (fs ++ [flast]) s = some s1 ∧ s1.cmd = none ∧ s1.cur = 0 ∧
        s1.lines_queue = s.lines_queue ++ [b] ∧ Touch s s1 b av ∧
        view s1 b = stored cfg.CONFIG_BOOT_MAX_LINE_INPUT_LEN
          (acc ++ (fs.map payload).flatten ++ w ++ [10]) ∧
        (buf s1 b).line.length = cfg.CONFIG_BOOT_MAX_LINE_INPUT_LEN ∧ WF cfg s1 := by
  induction fs with
  | nil =>
    intro s acc hwf hasm hb
    obtain ⟨s1, e1, r⟩ := can_rx_cb_line hC flast w hwf hasm hb hid hf hw
    refine ⟨s1, ?_, ?_⟩
    · simp [rx_run, e1]
    · simpa using r
  | cons f fs ih =>
    intro s acc hwf hasm hb
    obtain ⟨hfid, hfw⟩ := hfs f (List.mem_cons_self _ _)
    have hfs1 : ∀ f ∈ fs, f.id = cfg.CONFIG_MCUBOOT_CAN_RX_ID ∧ ∀ c ∈ payload f, c ≠ 10 :=
      fun x hx => hfs x (List.mem_cons_of_mem _ hx)
    obtain ⟨s1, e1, c1, l1, t1, -, a1, w1⟩ := can_rx_cb_plain hC f hwf hasm hb hfid hfw
    obtain ⟨s2, e2, c2, u2, l2, t2, v2, n2, w2⟩ := ih hfs1 w1 a1 (Or.inl ⟨c1, t1.avail⟩)
    refine ⟨s2, ?_, c2, u2, ?_, t1.trans t2, ?_, n2, w2⟩
    · simp [rx_run, e1, e2]
    · rw [l2, l1]
    · rw [v2]
      simp [List.append_assoc]

/-! ## Order and content of the lines handed to the reader -/

theorem split_lines_plain (w : List Int) (hw : ∀ c ∈ w, c ≠ 10) (acc rest : List Int) :
    split_lines acc (w ++ rest) = split_lines (acc ++ w) rest := by
  induction w generalizing acc with
  | nil => simp
  | cons c w ih =>
    have hc : c ≠ 10 := hw c (List.mem_cons_self _ _)
    have hw1 : ∀ c ∈ w, c ≠ 10 := fun x hx => hw x (List.mem_cons_of_mem _ hx)
    show split_lines acc (c :: (w ++ rest)) = _
    rw [split_lines]
    simp only [hc, ↓reduceIte]
    rw [ih hw1]
    simp

theorem split_lines_eol (acc rest : List Int) :
    split_lines acc (10 :: rest) = (acc ++ [10]) :: split_lines [] rest := by
  simp [split_lines]

theorem split_lines_flatten (lines : List (List Int))
    (h : ∀ l ∈ lines, ∃ w, l = w ++ [10] ∧ ∀ c ∈ w, c ≠ 10) :
    split_lines [] lines.flatten = lines := by
  induction lines with
  | nil => simp [split_lines]
  | cons l lines ih =>
    obtain ⟨w, hl, hw⟩ := h l (List.mem_cons_self _ _)
    have h1 : ∀ l ∈ lines, ∃ w, l = w ++ [10] ∧ ∀ c ∈ w, c ≠ 10 :=
      fun x hx => h x (List.mem_cons_of_mem _ hx)
    rw [List.flatten_cons, hl, List.append_assoc, split_lines_plain w hw]
    simp only [List.nil_append, List.singleton_append, split_lines_eol, ih h1]

theorem inuse_not_queued {cfg : Config} {s : State} {b : Nat} {av : List Nat}
    (hwf : WF cfg s)
    (hb : (s.cmd = some b ∧ s.avail_queue = av) ∨ (s.cmd = none ∧ s.avail_queue = b :: av)) :
    b ∉ s.lines_queue := by
  intro hmem
  have hcnt : List.count b (owners s) ≤ 1 := List.nodup_iff_count_le_one.mp hwf.pool.nodup b
  have h1 : 0 < List.count b s.lines_queue := List.count_pos_iff.mpr hmem
  rcases hb with ⟨hcmd, -⟩ | ⟨hcmd, hav⟩
  · simp [owners, hcmd, List.count_append] at hcnt
    omega
  · simp [owners, hcmd, hav, List.count_append] at hcnt
    omega

theorem view_congr {s s1 : State} {b : Nat} (h : buf s1 b = buf s b) : view s1 b = view s b := by
  simp [view, h]

theorem one_line_cases (p : List Int) (h : ∀ c ∈ p.dropLast, c ≠ 10) :
    (∀ c ∈ p, c ≠ 10) ∨ ∃ w, p = w ++ [10] ∧ ∀ c ∈ w, c ≠ 10 := by
  rcases List.eq_nil_or_concat p with hp | ⟨w, c, hp⟩
  · left
    simp [hp]
  · rw [List.concat_eq_append] at hp
    subst hp
    have hw : ∀ x ∈ w, x ≠ 10 := by simpa using h
    by_cases hc : c = 10
    · right
      exact ⟨w, by rw [hc], hw⟩
    · left
      intro x hx
      rcases List.mem_append.mp hx with hx | hx
      · exact hw x hx
      · have : x = c := by simpa using hx
        rw [this]; exact hc

/-- One callback on a frame of one line keeps the simulation: either its
bytes extend the line in progress, or they complete it and the line joins the
queue of ready lines. -/
theorem sim_can_rx_cb {cfg : Config} (hC : cfg.CONFIG_BOOT_MAX_LINE_INPUT_LEN < 65536)
    {s : State} {acc : List Int} {Q : List (List Int)} (f : can_frame)
    (hsim : Sim cfg s acc Q) (hid : f.id = cfg.CONFIG_MCUBOOT_CAN_RX_ID)
    (hp : ∀ c ∈ (payload f).dropLast, c ≠ 10)
    (hex : s.cmd = none → s.avail_queue ≠ []) (rest : List Int) :
    ∃ s1 acc1 Q1, can_rx_cb cfg f s = some s1 ∧ Sim cfg s1 acc1 Q1 ∧
      Q1 ++ split_lines acc1 rest = Q ++ split_lines acc (payload f ++ rest) := by
  obtain ⟨hwf, hasm, hq⟩ := hsim
  have hb : ∃ b av, (s.cmd = some b ∧ s.avail_queue = av) ∨
      (s.cmd = none ∧ s.avail_queue = b :: av) := by
    rcases hcmd : s.cmd with _ | b
    · rcases hav : s.avail_queue with _ | ⟨b, av⟩
      · exact absurd hav (hex hcmd)
      · exact ⟨b, av, Or.inr ⟨rfl, rfl⟩⟩
    · exact ⟨b, s.avail_queue, Or.inl ⟨rfl, rfl⟩⟩
  obtain ⟨b, av, hb⟩ := hb
  have hnq := inuse_not_queued hwf hb
  rcases one_line_cases (payload f) hp with hw | ⟨w, hf, hw⟩
  · obtain ⟨s1, e1, -, l1, t1, -, a1, w1⟩ := can_rx_cb_plain hC f hwf hasm hb hid hw
    refine ⟨s1, acc ++ payload f, Q, e1, ⟨w1, a1, ?_⟩, ?_⟩
    · rw [l1, ← hq]
      apply List.map_congr_left
      intro b1 hb1
      exact view_congr (t1.others b1 (fun h => hnq (h ▸ hb1)))
    · rw [split_lines_plain _ hw]
  · obtain ⟨s1, e1, c1, u1, l1, t1, v1, -, w1⟩ := can_rx_cb_line hC f w hwf hasm hb hid hf hw
    refine ⟨s1, [], Q ++ [acc ++ w ++ [10]], e1, ⟨w1, ⟨?_, fun _ => rfl, ?_⟩, ?_⟩, ?_⟩
    · simp [u1]
    · intro b1 hb1
      rw [c1] at hb1
      exact absurd hb1 (by simp)
    · rw [l1, List.map_append, List.map_append, ← hq]
      congr 1
      · apply List.map_congr_left
        intro b1 hb1
        exact view_congr (t1.others b1 (fun h => hnq (h ▸ hb1)))
      · simp [v1]
    · rw [hf, List.append_assoc w, split_lines_plain w hw]
      simp [split_lines_eol]

theorem sim_getline_empty {cfg : Config} {s : State} {acc : List Int} {Q : List (List Int)}
    (hsim : Sim cfg s acc Q) (hq : s.lines_queue = []) :
    Q = [] ∧ (boot_can_fifo_getline s).2 = (none, 0) ∧
      Sim cfg (boot_can_fifo_getline s).1 acc [] := by
  obtain ⟨hwf, hasm, hv⟩ := hsim
  have hQ : Q = [] := by
    rw [hq] at hv
    simpa using hv.symm
  have hg := getline_empty hwf.pool hq
  refine ⟨hQ, by rw [hg], wf_getline hwf, ?_, ?_⟩
  · rw [hg]
    exact hasm
  · rw [hg]
    simp [hq]

theorem sim_getline_ready {cfg : Config} {s : State} {acc : List Int} {Q : List (List Int)}
    {b : Nat} {rest : List Nat} (hsim : Sim cfg s acc Q) (hq : s.lines_queue = b :: rest) :
    ∃ l Q1, Q = l :: Q1 ∧
      (boot_can_fifo_getline s).2 = (some b, (buf s b).len) ∧
      buf (boot_can_fifo_getline s).1 b = buf s b ∧
      view s b = stored cfg.CONFIG_BOOT_MAX_LINE_INPUT_LEN l ∧
      Sim cfg (boot_can_fifo_getline s).1 acc Q1 := by
  obtain ⟨hwf, hasm, hv⟩ := hsim
  obtain ⟨s1, hg, hb, hl, -, hc, hu⟩ := getline_ready hq
  rw [hq] at hv
  rcases Q with _ | ⟨l, Q1⟩
  · simp at hv
  · simp only [List.map_cons, List.cons.injEq] at hv
    have hbuf : ∀ b1, buf s1 b1 = buf s b1 := fun b1 => by simp [buf, hb]
    refine ⟨l, Q1, rfl, by rw [hg], by rw [hg]; exact hbuf b, hv.1, ?_⟩
    have hwf1 := wf_getline hwf
    rw [hg] at hwf1 ⊢
    refine ⟨hwf1, ⟨?_, ?_, ?_⟩, ?_⟩
    · show s1.cur = _
      rw [hu]; exact hasm.1
    · intro h
      exact hasm.2.1 (hc ▸ h)
    · intro b1 h1
      show (buf s1 b1).line.take s1.cur = _
      rw [hbuf, hu]
      exact hasm.2.2 b1 (hc ▸ h1)
    · show s1.lines_queue.map (view s1) = _
      rw [hl, ← hv.2]
      apply List.map_congr_left
      intro b1 _
      exact view_congr (hbuf b1)

/-- Along every run of frames of one line each in which the producer never
finds `avail_queue` empty, no call dereferences `NULL`, and the lines read so
far followed by the lines still queued are the lines completed so far, in the
order of their terminators, each cut at the capacity. -/
theorem sim_run {cfg : Config} (hC : cfg.CONFIG_BOOT_MAX_LINE_INPUT_LEN < 65536)
    (evs : List Ev) :
    ∀ (s : State) (acc : List Int) (Q : List (List Int)), Sim cfg s acc Q →
      (∀ f, Ev.rx f ∈ evs → f.id = cfg.CONFIG_MCUBOOT_CAN_RX_ID ∧
        ∀ c ∈ (payload f).dropLast, c ≠ 10) →
      never_exhausted cfg evs s = true →
      ∃ sfin rs accf Qf, run_results cfg evs s = some (sfin, rs) ∧ Sim cfg sfin accf Qf ∧
        lines_read rs ++ Qf.map (stored cfg.CONFIG_BOOT_MAX_LINE_INPUT_LEN) =
          (Q ++ split_lines acc (rx_stream evs)).map
            (stored cfg.CONFIG_BOOT_MAX_LINE_INPUT_LEN) ∧
        ∀ r ∈ rs, r.1 = none → r.2 = 0 := by
  induction evs with
  | nil =>
    intro s acc Q hsim _ _
    exact ⟨s, [], acc, Q, rfl, hsim, by simp [lines_read, rx_stream, split_lines],
      by simp⟩
  | cons e rest ih =>
    intro s acc Q hsim hfr hne
    have hfr1 : ∀ f, Ev.rx f ∈ rest → f.id = cfg.CONFIG_MCUBOOT_CAN_RX_ID ∧
        ∀ c ∈ (payload f).dropLast, c ≠ 10 :=
      fun f hf => hfr f (List.mem_cons_of_mem _ hf)
    cases e with
    | rx f =>
      obtain ⟨hid, hp⟩ := hfr f (List.mem_cons_self _ _)
      simp only [never_exhausted, Bool.and_eq_true, Bool.or_eq_true] at hne
      have hex : s.cmd = none → s.avail_queue ≠ [] := by
        intro hcmd hav
        rcases hne.1 with h | h
        · simp [hcmd] at h
        · simp [hav] at h
      obtain ⟨s1, acc1, Q1, e1, hsim1, hsplit⟩ :=
        sim_can_rx_cb hC f hsim hid hp hex (rx_stream rest)
      have hne1 : never_exhausted cfg rest s1 = true := by
        have := hne.2
        rw [e1] at this
        exact this
      obtain ⟨sfin, rs, accf, Qf, er, hsimf, hlines, hzero⟩ := ih s1 acc1 Q1 hsim1 hfr1 hne1
      refine ⟨sfin, rs, accf, Qf, ?_, hsimf, ?_, hzero⟩
      · simp only [run_results, e1]
        exact er
      · rw [hlines, hsplit]
        rfl
    | getline =>
      have hne1 : never_exhausted cfg rest (boot_can_fifo_getline s).1 = true := hne
      rcases hq : s.lines_queue with _ | ⟨b, more⟩
      · obtain ⟨hQ, hres, hsim1⟩ := sim_getline_empty hsim hq
        obtain ⟨sfin, rs, accf, Qf, er, hsimf, hlines, hzero⟩ :=
          ih _ acc [] hsim1 hfr1 hne1
        refine ⟨sfin, (none, 0) :: rs, accf, Qf, ?_, hsimf, ?_, ?_⟩
        · simp only [run_results, er, hres, Option.map_none']
        · simp only [lines_read, List.filterMap_cons, Option.map_none']
          rw [hQ]
          exact hlines
        · intro r hr
          rcases List.mem_cons.mp hr with h | h
          · intro _
            rw [h]
          · exact hzero r h
      · obtain ⟨l, Q1, hQ, hres, hbuf, hview, hsim1⟩ := sim_getline_ready hsim hq
        obtain ⟨sfin, rs, accf, Qf, er, hsimf, hlines, hzero⟩ :=
          ih _ acc Q1 hsim1 hfr1 hne1
        refine ⟨sfin, (some (buf s b).line, (buf s b).len) :: rs, accf, Qf, ?_, hsimf, ?_, ?_⟩
        · simp only [run_results, er, hres, Option.map_some', hbuf]
        · simp only [lines_read, List.filterMap_cons, Option.map_some']
          rw [hQ]
          simp only [List.cons_append, List.map_cons]
          rw [← hview]
          simp only [lines_read] at hlines
          rw [hlines]
          rfl
        · intro r hr
          rcases List.mem_cons.mp hr with h | h
          · intro hn
            rw [h] at hn
            simp at hn
          · exact hzero r h

theorem sim_init_state (cfg : Config) : Sim cfg (init_state cfg) [] [] := by
  refine ⟨wf_init_state cfg, ⟨?_, fun _ => rfl, ?_⟩, ?_⟩
  · simp [init_state, boot_console_init, boot_state]
  · intro b hb
    simp [init_state, boot_console_init, boot_state] at hb
  · simp [init_state, boot_console_init, boot_state, sys_slist_init]

theorem stored_of_le {C : Nat} {l : List Int} (h : l.length ≤ C) :
    stored C l = (l, (l.length : Int)) := by
  unfold stored
  rw [List.take_of_length_le h, Nat.min_eq_left h]

/-- C2 (with the capacity within the range of the 16-bit cursor): when `M`
complete lines, each of at most `C` bytes, ending in `'\n'` and holding no
other `'\n'`, are delivered from the state left by `boot_console_init` in
frames with the receive identifier, no frame holding bytes of two lines, in
any interleaving with reader calls in which the producer never finds
`avail_queue` empty, then every call returns, and the lines the reader got,
in call order, followed by the lines still in `lines_queue`, are exactly the
delivered lines in the order of their terminators, each with its exact bytes
and its byte count (terminator included) as length; and once `M` lines have
been returned, every further reader call returns no line and length 0. -/
theorem C2_order_and_content (cfg : Config)
    (hC : cfg.CONFIG_BOOT_MAX_LINE_INPUT_LEN < 65536)
    (lines : List (List Int)) (evs : List Ev)
    (hlines : ∀ l ∈ lines, l.length ≤ cfg.CONFIG_BOOT_MAX_LINE_INPUT_LEN ∧
      ∃ w, l = w ++ [10] ∧ ∀ c ∈ w, c ≠ 10)
    (hframes : ∀ f, Ev.rx f ∈ evs → f.id = cfg.CONFIG_MCUBOOT_CAN_RX_ID ∧
      ∀ c ∈ (payload f).dropLast, c ≠ 10)
    (hstream : rx_stream evs = lines.flatten)
    (hex : never_exhausted cfg evs (init_state cfg) = true) :
    ∃ sfin rs, run_results cfg evs (init_state cfg) = some (sfin, rs) ∧
      lines_read rs ++ sfin.lines_queue.map (view sfin) =
        lines.map (fun l => (l, (l.length : Int))) ∧
      ∀ i, (lines_read (rs.take i)).length = lines.length →
        ∀ r ∈ rs.drop i, r = (none, 0) := by
  obtain ⟨sfin, rs, accf, Qf, er, hsimf, hl, hzero⟩ :=
    sim_run hC evs (init_state cfg) [] [] (sim_init_state cfg) hframes hex
  have hsplit : split_lines [] (rx_stream evs) = lines := by
    rw [hstream]
    exact split_lines_flatten lines (fun l hl => (hlines l hl).2)
  have hmap : lines.map (stored cfg.CONFIG_BOOT_MAX_LINE_INPUT_LEN) =
      lines.map (fun l => (l, (l.length : Int))) :=
    List.map_congr_left (fun l hl => stored_of_le (hlines l hl).1)
  have htotal : lines_read rs ++ sfin.lines_queue.map (view sfin) =
      lines.map (fun l => (l, (l.length : Int))) := by
    rw [hsimf.2.2, hl, List.nil_append, hsplit, hmap]
  refine ⟨sfin, rs, er, htotal, ?_⟩
  intro i hi r hr
  have hlen := congrArg List.length htotal
  rw [List.length_append, List.length_map, List.length_map] at hlen
  have hsplit2 : lines_read rs = lines_read (rs.take i) ++ lines_read (rs.drop i) := by
    unfold lines_read
    rw [← List.filterMap_append, List.take_append_drop]
  have hnil : lines_read (rs.drop i) = [] := by
    apply List.eq_nil_of_length_eq_zero
    have := congrArg List.length hsplit2
    rw [List.length_append] at this
    omega
  have hr1 : r.1 = none := by
    unfold lines_read at hnil
    have := List.filterMap_eq_nil_iff.mp hnil r hr
    simpa using this
  have hr2 : r.2 = 0 := hzero r (List.mem_of_mem_drop hr) hr1
  exact Prod.ext hr1 hr2

theorem C2_order_and_content_witness :
    cfg16.CONFIG_BOOT_MAX_LINE_INPUT_LEN < 65536 ∧
    never_exhausted cfg16
      [Ev.rx (rx16 [104, 105, 10]), Ev.rx (rx16 [119, 111, 114, 108, 100, 33, 10]),
        Ev.getline, Ev.getline, Ev.getline] (init_state cfg16) = true ∧
    (run_results cfg16
      [Ev.rx (rx16 [104, 105, 10]), Ev.rx (rx16 [119, 111, 114, 108, 100, 33, 10]),
        Ev.getline, Ev.getline, Ev.getline] (init_state cfg16)).map Prod.snd =
      some
        [(some [104, 105, 10, 0, 0, 0, 0, 0, 0, 0, 0, 0, 0, 0, 0, 0], 3),
         (some [119, 111, 114, 108, 100, 33, 10, 0, 0, 0, 0, 0, 0, 0, 0, 0], 7),
         (none, 0)] ∧
    ∃ sfin rs, run_results cfg16
      [Ev.rx (rx16 [104, 105, 10]), Ev.rx (rx16 [119, 111, 114, 108, 100, 33, 10]),
        Ev.getline, Ev.getline, Ev.getline] (init_state cfg16) = some (sfin, rs) ∧
      lines_read rs ++ sfin.lines_queue.map (view sfin) =
        [[104, 105, 10], [119, 111, 114, 108, 100, 33, 10]].map
          (fun l => (l, (l.length : Int))) ∧
      ∀ i, (lines_read (rs.take i)).length =
          ([[104, 105, 10], [119, 111, 114, 108, 100, 33, 10]] : List (List Int)).length →
        ∀ r ∈ rs.drop i, r = (none, 0) :=
  ⟨by decide, by decide, by decide,
    C2_order_and_content cfg16 (by decide)
      [[104, 105, 10], [119, 111, 114, 108, 100, 33, 10]]
      [Ev.rx (rx16 [104, 105, 10]), Ev.rx (rx16 [119, 111, 114, 108, 100, 33, 10]),
        Ev.getline, Ev.getline, Ev.getline]
      (by
        intro l hl
        simp only [List.mem_cons, List.mem_singleton, List.not_mem_nil, or_false] at hl
        rcases hl with rfl | rfl
        · exact ⟨by decide, [104, 105], rfl, by decide⟩
        · exact ⟨by decide, [119, 111, 114, 108, 100, 33], rfl, by decide⟩)
      (by
        intro f hf
        simp only [List.mem_cons, Ev.rx.injEq, List.mem_singleton, List.not_mem_nil,
          or_false, reduceCtorEq] at hf
        rcases hf with rfl | rfl
        · exact ⟨rfl, by decide⟩
        · exact ⟨rfl, by decide⟩)
      (by decide) (by decide)⟩

/-! ## Truncation, exhaustion and deferred recycling -/

theorem asm_idle {cfg : Config} {s : State} (hcmd : s.cmd = none) (hcur : s.cur = 0) :
    Asm cfg s [] := by
  refine ⟨by simp [hcur], fun _ => rfl, fun b hb => ?_⟩
  rw [hcmd] at hb
  exact absurd hb (by simp)

theorem view_stored_long {C : Nat} {s : State} {b : Nat} {l : List Int}
    (hv : view s b = stored C l) (hlen : (buf s b).line.length = C) (hl : C ≤ l.length) :
    (buf s b).len = C ∧ (buf s b).line = l.take C := by
  unfold view stored at hv
  have h1 := (Prod.ext_iff.mp hv).1
  have h2 := (Prod.ext_iff.mp hv).2
  simp only at h1 h2
  rw [Nat.min_eq_right hl] at h2
  refine ⟨h2, ?_⟩
  rw [h2, Int.toNat_ofNat, List.take_of_length_le (by omega)] at h1
  exact h1

theorem run_getlines_fields {cfg : Config} (k : Nat) :
    ∀ {s t : State}, run cfg (List.replicate k Ev.getline) s = some t →
      t.line_bufs = s.line_bufs ∧ t.cur = s.cur ∧ t.cmd = s.cmd := by
  induction k with
  | zero =>
    intro s t h
    simp [run] at h
    rw [← h]
    exact ⟨rfl, rfl, rfl⟩
  | succ k ih =>
    intro s t h
    rw [List.replicate_succ] at h
    simp only [run, step] at h
    obtain ⟨h1, h2, h3⟩ := ih h
    obtain ⟨g1, g2, g3⟩ := getline_fields s
    exact ⟨h1.trans g1, h2.trans g2, h3.trans g3⟩

/-- C4 (with the capacity within the range of the 16-bit cursor): a line of
`L > C` bytes, terminator last, delivered in frames with the receive
identifier in a reachable state with an idle assembler and a free buffer `b`
at the head of `avail_queue`, publishes exactly the buffer `b`, with `len = C`
and the bytes `0 .. C-1` of the line as content; no other buffer changes, and
the assembler is idle again. A following line of at most `C` bytes, delivered
at once or after any number of reader calls, when `avail_queue` then holds a
free buffer `b2`, is published in `b2` with its exact bytes and length, and
leaves every other buffer as it was. -/
theorem C4_truncation (cfg : Config) (hC : cfg.CONFIG_BOOT_MAX_LINE_INPUT_LEN < 65536)
    (s : State) (b : Nat) (av : List Nat) (hr : Reachable cfg s)
    (hcmd : s.cmd = none) (hcur : s.cur = 0) (hav : s.avail_queue = b :: av)
    (fs : List can_frame) (flast : can_frame) (w : List Int)
    (hfs : ∀ f ∈ fs, f.id = cfg.CONFIG_MCUBOOT_CAN_RX_ID ∧ ∀ c ∈ payload f, c ≠ 10)
    (hid : flast.id = cfg.CONFIG_MCUBOOT_CAN_RX_ID) (hf : payload flast = w ++ [10])
    (hw : ∀ c ∈ w, c ≠ 10)
    (hL : cfg.CONFIG_BOOT_MAX_LINE_INPUT_LEN
      < ((fs.map payload).flatten ++ w ++ [10]).length) :
    ∃ s1,
      rx_run cfg (fs ++ [flast]) s = some s1 ∧
      s1.lines_queue = s.lines_queue ++ [b] ∧
      (buf s1 b).len = cfg.CONFIG_BOOT_MAX_LINE_INPUT_LEN ∧
      (buf s1 b).line =
        ((fs.map payload).flatten ++ w ++ [10]).take cfg.CONFIG_BOOT_MAX_LINE_INPUT_LEN ∧
      (∀ b1, b1 ≠ b → buf s1 b1 = buf s b1) ∧
      s1.avail_queue = av ∧ s1.getline_cmd = s.getline_cmd ∧
      s1.cmd = none ∧ s1.cur = 0 ∧
      ∀ (k : Nat) (t : State) (b2 : Nat) (av2 : List Nat)
        (fs2 : List can_frame) (flast2 : can_frame) (w2 : List Int),
        run cfg (List.replicate k Ev.getline) s1 = some t →
        t.avail_queue = b2 :: av2 →
        (∀ f ∈ fs2, f.id = cfg.CONFIG_MCUBOOT_CAN_RX_ID ∧ ∀ c ∈ payload f, c ≠ 10) →
        flast2.id = cfg.CONFIG_MCUBOOT_CAN_RX_ID → payload flast2 = w2 ++ [10] →
        (∀ c ∈ w2, c ≠ 10) →
        ((fs2.map payload).flatten ++ w2 ++ [10]).length
          ≤ cfg.CONFIG_BOOT_MAX_LINE_INPUT_LEN →
        ∃ s2, rx_run cfg (fs2 ++ [flast2]) t = some s2 ∧
          s2.lines_queue = t.lines_queue ++ [b2] ∧
          view s2 b2 = ((fs2.map payload).flatten ++ w2 ++ [10],
            (((fs2.map payload).flatten ++ w2 ++ [10]).length : Int)) ∧
          (∀ b1, b1 ≠ b2 → buf s2 b1 = buf t b1) ∧
          (b2 ≠ b → buf s2 b = buf s1 b) ∧
          s2.avail_queue = av2 ∧ s2.cmd = none ∧ s2.cur = 0 := by
  have hwf := wf_reachable hr
  obtain ⟨s1, e1, c1, u1, l1, t1, v1, n1, w1⟩ :=
    rx_run_line hC fs flast w hfs hid hf hw hwf (asm_idle hcmd hcur) (Or.inr ⟨hcmd, hav⟩)
  rw [List.nil_append] at v1
  obtain ⟨hlen, hline⟩ := view_stored_long v1 n1 (Nat.le_of_lt hL)
  refine ⟨s1, e1, l1, hlen, hline, t1.others, t1.avail, t1.gcmd, c1, u1, ?_⟩
  intro k t b2 av2 fs2 flast2 w2 hrun hav2 hfs2 hid2 hf2 hw2 hL2
  obtain ⟨hb, hu, hc⟩ := run_getlines_fields k hrun
  have hwt : WF cfg t := wf_run w1 hrun
  have hct : t.cmd = none := hc.trans c1
  have hut : t.cur = 0 := hu.trans u1
  obtain ⟨s2, e2, c2, u2, l2, t2, v2, -, -⟩ :=
    rx_run_line hC fs2 flast2 w2 hfs2 hid2 hf2 hw2 hwt (asm_idle hct hut)
      (Or.inr ⟨hct, hav2⟩)
  rw [List.nil_append, stored_of_le hL2] at v2
  refine ⟨s2, e2, l2, v2, t2.others, ?_, t2.avail, c2, u2⟩
  intro hne
  rw [t2.others b (fun e => hne e.symm)]
  simp [buf, hb]

theorem C4_truncation_witness :
    cfg16.CONFIG_BOOT_MAX_LINE_INPUT_LEN < 65536 ∧ Reachable cfg16 state_checked_out ∧
    state_checked_out.cmd = none ∧ state_checked_out.cur = 0 ∧
    state_checked_out.avail_queue = 1 :: [] ∧
    ∃ s1,
      rx_run cfg16 ([rx16 [97, 98, 99, 100, 101, 102, 103, 104],
          rx16 [105, 106, 107, 108, 109, 110, 111, 112]] ++ [rx16 [113, 114, 10]])
        state_checked_out = some s1 ∧
      s1.lines_queue = state_checked_out.lines_queue ++ [1] ∧
      (buf s1 1).len = cfg16.CONFIG_BOOT_MAX_LINE_INPUT_LEN ∧
      (buf s1 1).line =
        (([rx16 [97, 98, 99, 100, 101, 102, 103, 104],
            rx16 [105, 106, 107, 108, 109, 110, 111, 112]].map payload).flatten
          ++ [113, 114] ++ [10]).take cfg16.CONFIG_BOOT_MAX_LINE_INPUT_LEN ∧
      (∀ b1, b1 ≠ 1 → buf s1 b1 = buf state_checked_out b1) ∧
      s1.avail_queue = [] ∧ s1.getline_cmd = state_checked_out.getline_cmd ∧
      s1.cmd = none ∧ s1.cur = 0 ∧
      (boot_can_fifo_getline s1).1.avail_queue = 0 :: [] ∧
      ∃ s2, rx_run cfg16 ([] ++ [rx16 [104, 105, 10]]) (boot_can_fifo_getline s1).1
          = some s2 ∧
        s2.lines_queue = (boot_can_fifo_getline s1).1.lines_queue ++ [0] ∧
        view s2 0 = ((([] : List can_frame).map payload).flatten ++ [104, 105] ++ [10],
          (((([] : List can_frame).map payload).flatten ++ [104, 105] ++ [10]).length
            : Int)) ∧
        s2.cmd = none ∧ s2.cur = 0 :=
  have hr : Reachable cfg16 state_checked_out :=
    reachable_run [Ev.rx (rx16 [104, 105, 10]), Ev.getline] Reachable.init (by decide)
  have h := C4_truncation cfg16 (by decide) state_checked_out 1 [] hr rfl rfl rfl
    [rx16 [97, 98, 99, 100, 101, 102, 103, 104], rx16 [105, 106, 107, 108, 109, 110, 111, 112]]
    (rx16 [113, 114, 10]) [113, 114]
    (by
      intro f hf
      simp only [List.mem_cons, List.mem_singleton, List.not_mem_nil, or_false] at hf
      rcases hf with rfl | rfl
      · exact ⟨rfl, by decide⟩
      · exact ⟨rfl, by decide⟩)
    rfl rfl (by decide) (by decide)
  ⟨by decide, hr, rfl, rfl, rfl,
    h.elim fun s1 hs1 =>
      have hwf1 : WF cfg16 s1 := wf_reachable (reachable_rx_run _ hr hs1.1)
      have hav1 : (boot_can_fifo_getline s1).1.avail_queue = 0 :: [] := by
        rw [getline_avail hwf1.pool, hs1.2.2.2.2.2.1, hs1.2.2.2.2.2.2.1]
        rfl
      have h2 := hs1.2.2.2.2.2.2.2.2.2 1 (boot_can_fifo_getline s1).1 0 [] []
        (rx16 [104, 105, 10]) [104, 105] rfl hav1 (by simp) rfl rfl (by decide) (by decide)
      ⟨s1, hs1.1, hs1.2.1, hs1.2.2.1, hs1.2.2.2.1, hs1.2.2.2.2.1, hs1.2.2.2.2.2.1,
        hs1.2.2.2.2.2.2.1, hs1.2.2.2.2.2.2.2.1, hs1.2.2.2.2.2.2.2.2.1, hav1,
        h2.elim fun s2 hs2 =>
          ⟨s2, hs2.1, hs2.2.1, hs2.2.2.1, hs2.2.2.2.2.2.2.1, hs2.2.2.2.2.2.2.2⟩⟩⟩

theorem rx_byte_keeps {cfg : Config} {s s1 : State} {c : Int}
    (h : rx_byte cfg s c = some s1) :
    s1.getline_cmd = s.getline_cmd ∧ s1.avail_queue = s.avail_queue ∧
    (s1.cmd = s.cmd ∨ s1.cmd = none) ∧
    ∀ b1, s.cmd ≠ some b1 → buf s1 b1 = buf s b1 := by
  unfold rx_byte at h
  rcases hcmd : s.cmd with _ | b
  · by_cases hc : s.cur < cfg.CONFIG_BOOT_MAX_LINE_INPUT_LEN <;> by_cases h10 : c = 10 <;>
      simp [hc, hcmd, h10] at h
    rw [← h]
    exact ⟨rfl, rfl, Or.inl hcmd, fun _ _ => rfl⟩
  · by_cases hc : s.cur < cfg.CONFIG_BOOT_MAX_LINE_INPUT_LEN <;> by_cases h10 : c = 10 <;>
      simp [hc, hcmd, h10] at h <;> rw [← h] <;>
      refine ⟨rfl, rfl, by simp [hcmd], fun b1 hb1 => ?_⟩ <;>
      have hne : b1 ≠ b := fun e => hb1 (by rw [e]) <;>
      simp only [buf] <;>
      first
        | rw [getD_store_len_ne _ _ _ hne, getD_store_line_ne _ _ _ _ hne]
        | rw [getD_store_line_ne _ _ _ _ hne]
        | rw [getD_store_len_ne _ _ _ hne]

theorem rx_loop_keeps {cfg : Config} {bytes : List Int} {s s1 : State}
    (h : rx_loop cfg bytes s = some s1) :
    s1.getline_cmd = s.getline_cmd ∧ s1.avail_queue = s.avail_queue ∧
    (s1.cmd = s.cmd ∨ s1.cmd = none) ∧
    ∀ b1, s.cmd ≠ some b1 → buf s1 b1 = buf s b1 := by
  induction bytes generalizing s with
  | nil =>
    simp [rx_loop] at h
    rw [← h]
    exact ⟨rfl, rfl, Or.inl rfl, fun _ _ => rfl⟩
  | cons c rest ih =>
    unfold rx_loop at h
    rcases hb : rx_byte cfg s c with _ | s2
    · simp [hb] at h
    · simp [hb] at h
      obtain ⟨g1, a1, c1, o1⟩ := rx_byte_keeps hb
      obtain ⟨g2, a2, c2, o2⟩ := ih h
      refine ⟨g2.trans g1, a2.trans a1, ?_, ?_⟩
      · rcases c2 with c2 | c2
        · rcases c1 with c1 | c1
          · exact Or.inl (c2.trans c1)
          · exact Or.inr (c2.trans c1)
        · exact Or.inr c2
      · intro b1 hb1
        have hb2 : s2.cmd ≠ some b1 := by
          rcases c1 with c1 | c1
          · rw [c1]; exact hb1
          · rw [c1]; simp
        rw [o2 b1 hb2, o1 b1 hb1]

/-- Any callback that returns leaves the reader's buffer pointer alone and
changes no buffer other than the one in progress or the one it claims. -/
theorem can_rx_cb_keeps {cfg : Config} {f : can_frame} {s s1 : State}
    (h : can_rx_cb cfg f s = some s1) :
    s1.getline_cmd = s.getline_cmd ∧
    ∀ b1, s.cmd ≠ some b1 → b1 ∉ s.avail_queue → buf s1 b1 = buf s b1 := by
  unfold can_rx_cb at h
  by_cases hid : f.id = cfg.CONFIG_MCUBOOT_CAN_RX_ID
  · rcases hcmd : s.cmd with _ | b
    · rcases hav : s.avail_queue with _ | ⟨n, rest⟩
      · simp [hid, hcmd, hav, sys_slist_get] at h
        rw [← h]
        exact ⟨rfl, fun _ _ _ => rfl⟩
      · simp [hid, hcmd, hav, sys_slist_get] at h
        obtain ⟨g1, -, -, o1⟩ := rx_loop_keeps h
        refine ⟨g1, fun b1 _ hb1 => ?_⟩
        have hne : b1 ≠ n := fun e => hb1 (by rw [e]; exact List.mem_cons_self _ _)
        have := o1 b1 (by simpa using fun e => hne e.symm)
        rw [this]
        rfl
    · simp [hid, hcmd] at h
      obtain ⟨g1, -, -, o1⟩ := rx_loop_keeps h
      refine ⟨g1, fun b1 hb1 _ => ?_⟩
      exact o1 b1 (by rw [hcmd]; exact hb1)
  · simp [hid] at h
    rw [← h]
    exact ⟨rfl, fun _ _ _ => rfl⟩

theorem checked_out_apart {cfg : Config} {s : State} {b : Nat} (hwf : WF cfg s)
    (hg : s.getline_cmd = some b) :
    b ∉ s.avail_queue ∧ b ∉ s.lines_queue ∧ s.cmd ≠ some b := by
  have hcnt : List.count b (owners s) ≤ 1 := List.nodup_iff_count_le_one.mp hwf.pool.nodup b
  simp only [owners, hg, List.count_append, Option.toList_some, List.count_cons_self,
    List.count_nil] at hcnt
  refine ⟨?_, ?_, ?_⟩
  · intro hm
    have := List.count_pos_iff.mpr hm
    omega
  · intro hm
    have := List.count_pos_iff.mpr hm
    omega
  · intro hm
    rw [hm] at hcnt
    simp at hcnt

theorem rx_run_keeps {cfg : Config} {b : Nat} (fs : List can_frame) :
    ∀ {s s1 : State}, WF cfg s → s.getline_cmd = some b → rx_run cfg fs s = some s1 →
      s1.getline_cmd = some b ∧ buf s1 b = buf s b := by
  induction fs with
  | nil =>
    intro s s1 _ hg h
    simp [rx_run] at h
    rw [← h]
    exact ⟨hg, rfl⟩
  | cons f fs ih =>
    intro s s1 hwf hg h
    unfold rx_run at h
    rcases hs : can_rx_cb cfg f s with _ | s2
    · simp [hs] at h
    · simp [hs] at h
      obtain ⟨g2, o2⟩ := can_rx_cb_keeps hs
      obtain ⟨ha, -, hc⟩ := checked_out_apart hwf hg
      obtain ⟨g1, o1⟩ := ih (wf_can_rx_cb hwf hs) (g2.trans hg) h
      exact ⟨g1, o1.trans (o2 b hc ha)⟩

/-- C6: in a reachable state, a buffer `b` returned by `boot_can_fifo_getline`
is, after that call and after any number of later `can_rx_cb` calls that
return, in neither queue and not the buffer in progress; its content and `len`
are as they were when it was returned; it is still the reader's buffer; and
the next `boot_can_fifo_getline` call appends it to the tail of `avail_queue`,
whether or not a line is ready. -/
theorem C6_deferred_recycle (cfg : Config) (s s1 s2 : State) (b : Nat) (len : Int)
    (fs : List can_frame) (hr : Reachable cfg s)
    (hg : boot_can_fifo_getline s = (s1, some b, len))
    (hrun : rx_run cfg fs s1 = some s2) :
    b ∉ s2.avail_queue ∧ b ∉ s2.lines_queue ∧ s2.cmd ≠ some b ∧
    buf s2 b = buf s b ∧ len = (buf s b).len ∧ s2.getline_cmd = some b ∧
    (boot_can_fifo_getline s2).1.avail_queue = s2.avail_queue ++ [b] := by
  have hwf := wf_reachable hr
  have hwf1 : WF cfg s1 := by
    have := wf_getline hwf
    rw [hg] at this
    exact this
  have hfacts : s1.getline_cmd = some b ∧ s1.line_bufs = s.line_bufs ∧ len = (buf s b).len := by
    rcases hl : s.lines_queue with _ | ⟨n, rest⟩
    · simp [boot_can_fifo_getline, hl, sys_slist_get] at hg
    · simp [boot_can_fifo_getline, hl, sys_slist_get] at hg
      obtain ⟨h1, h2, h3⟩ := hg
      rw [← h1, ← h2, ← h3]
      exact ⟨rfl, rfl, rfl⟩
  obtain ⟨hg1, hb1, hlen⟩ := hfacts
  have hbuf1 : buf s1 b = buf s b := by simp [buf, hb1]
  obtain ⟨hg2, hbuf2⟩ := rx_run_keeps fs hwf1 hg1 hrun
  have hwf2 := wf_rx_run hwf1 hrun
  obtain ⟨ha, hq, hc⟩ := checked_out_apart hwf2 hg2
  refine ⟨ha, hq, hc, hbuf2.trans hbuf1, hlen, hg2, ?_⟩
  rw [getline_avail hwf2.pool, hg2]
  rfl

theorem C6_deferred_recycle_witness :
    Reachable cfg16 state_line_ready ∧
    boot_can_fifo_getline state_line_ready = (state_checked_out, some 0, 3) ∧
    rx_run cfg16 [rx16 [121, 111, 10]] state_checked_out = some state_exhausted ∧
    (0 ∉ state_exhausted.avail_queue ∧ 0 ∉ state_exhausted.lines_queue ∧
      state_exhausted.cmd ≠ some 0 ∧
      buf state_exhausted 0 = buf state_line_ready 0 ∧ 3 = (buf state_line_ready 0).len ∧
      state_exhausted.getline_cmd = some 0 ∧
      (boot_can_fifo_getline state_exhausted).1.avail_queue =
        state_exhausted.avail_queue ++ [0]) :=
  have hr : Reachable cfg16 state_line_ready :=
    Reachable.step (Ev.rx (rx16 [104, 105, 10])) Reachable.init (by decide)
  have hg : boot_can_fifo_getline state_line_ready = (state_checked_out, some 0, 3) := by
    decide
  have hrun : rx_run cfg16 [rx16 [121, 111, 10]] state_checked_out = some state_exhausted := by
    decide
  ⟨hr, hg, hrun,
    C6_deferred_recycle cfg16 state_line_ready state_checked_out state_exhausted 0 3
      [rx16 [121, 111, 10]] hr hg hrun⟩

/-- C5: in any state with no buffer in progress and `avail_queue` empty, for
every capacity, `can_rx_cb` on any frame returns and leaves the whole state
as it was. And, with the capacity within the range of the 16-bit cursor, in
such a state that is reachable: when the reader holds a buffer `g`, its next
call puts `g` alone in `avail_queue`, after which a complete line of at most
`C` bytes delivered in its own frames is published in `g` with its exact
bytes and length. -/
theorem C5_pool_exhaustion (cfg : Config) (s : State)
    (hcmd : s.cmd = none) (hav : s.avail_queue = []) :
    (∀ f0 : can_frame, can_rx_cb cfg f0 s = some s) ∧
    (cfg.CONFIG_BOOT_MAX_LINE_INPUT_LEN < 65536 → Reachable cfg s →
      ∀ g, s.getline_cmd = some g →
        (boot_can_fifo_getline s).1.avail_queue = [g] ∧
        ∀ (fs : List can_frame) (flast : can_frame) (w : List Int),
          (∀ f ∈ fs, f.id = cfg.CONFIG_MCUBOOT_CAN_RX_ID ∧ ∀ c ∈ payload f, c ≠ 10) →
          flast.id = cfg.CONFIG_MCUBOOT_CAN_RX_ID → payload flast = w ++ [10] →
          (∀ c ∈ w, c ≠ 10) →
          ((fs.map payload).flatten ++ w ++ [10]).length
            ≤ cfg.CONFIG_BOOT_MAX_LINE_INPUT_LEN →
          ∃ s2, rx_run cfg (fs ++ [flast]) (boot_can_fifo_getline s).1 = some s2 ∧
            s2.lines_queue = (boot_can_fifo_getline s).1.lines_queue ++ [g] ∧
            view s2 g = ((fs.map payload).flatten ++ w ++ [10],
              (((fs.map payload).flatten ++ w ++ [10]).length : Int)) ∧
            s2.avail_queue = [] ∧ s2.cmd = none ∧ s2.cur = 0) := by
  constructor
  · intro f0
    unfold can_rx_cb
    by_cases hid : f0.id = cfg.CONFIG_MCUBOOT_CAN_RX_ID <;>
      simp [hid, hcmd, hav, sys_slist_get]
  · intro hC hr g hg
    have hwf := wf_reachable hr
    have havail : (boot_can_fifo_getline s).1.avail_queue = [g] := by
      rw [getline_avail hwf.pool, hav, hg]
      rfl
    refine ⟨havail, ?_⟩
    intro fs flast w hfs hid hf hw hL
    obtain ⟨-, h2, h3⟩ := getline_fields s
    have hwf1 := wf_getline hwf
    have hcmd1 : (boot_can_fifo_getline s).1.cmd = none := h3.trans hcmd
    have hcur1 : (boot_can_fifo_getline s).1.cur = 0 := h2.trans (hwf.idle hcmd)
    obtain ⟨s2, e2, c2, u2, l2, t2, v2, -, -⟩ :=
      rx_run_line hC fs flast w hfs hid hf hw hwf1 (asm_idle hcmd1 hcur1)
        (Or.inr ⟨hcmd1, havail⟩)
    rw [List.nil_append, stored_of_le hL] at v2
    exact ⟨s2, e2, l2, v2, t2.avail, c2, u2⟩

theorem C5_pool_exhaustion_witness :
    state_exhausted.cmd = none ∧ state_exhausted.avail_queue = [] ∧
    cfg16.CONFIG_BOOT_MAX_LINE_INPUT_LEN < 65536 ∧ Reachable cfg16 state_exhausted ∧
    state_exhausted.getline_cmd = some 0 ∧
    can_rx_cb cfg16 (rx16 [120, 10]) state_exhausted = some state_exhausted ∧
    (boot_can_fifo_getline state_exhausted).1.avail_queue = [0] ∧
    ∃ s2, rx_run cfg16 ([rx16 [119, 111, 114, 108, 100]] ++ [rx16 [33, 10]])
        (boot_can_fifo_getline state_exhausted).1 = some s2 ∧
      s2.lines_queue = (boot_can_fifo_getline state_exhausted).1.lines_queue ++ [0] ∧
      view s2 0 = (([rx16 [119, 111, 114, 108, 100]].map payload).flatten ++ [33] ++ [10],
        ((([rx16 [119, 111, 114, 108, 100]].map payload).flatten ++ [33] ++ [10]).length
          : Int)) ∧
      s2.avail_queue = [] ∧ s2.cmd = none ∧ s2.cur = 0 :=
  have hr : Reachable cfg16 state_exhausted :=
    reachable_run [Ev.rx (rx16 [104, 105, 10]), Ev.getline, Ev.rx (rx16 [121, 111, 10])]
      Reachable.init (by decide)
  have h := C5_pool_exhaustion cfg16 state_exhausted rfl rfl
  ⟨rfl, rfl, by decide, hr, rfl, h.1 (rx16 [120, 10]), (h.2 (by decide) hr 0 rfl).1,
    (h.2 (by decide) hr 0 rfl).2 [rx16 [119, 111, 114, 108, 100]] (rx16 [33, 10]) [33]
      (by
        intro f hf
        have : f = rx16 [119, 111, 114, 108, 100] := by simpa using hf
        rw [this]
        exact ⟨rfl, by decide⟩)
      rfl rfl (by decide) (by decide)⟩

/-! ## The cursor beyond sixteen bits -/

theorem wrap_byte {cfg : Config} (hC : cfg.CONFIG_BOOT_MAX_LINE_INPUT_LEN = 65536)
    {s : State} {b : Nat} (hcmd : s.cmd = some b) (hcur : s.cur < 65536) :
    rx_byte cfg s 0 = some { s with line_bufs := store_line s.line_bufs b s.cur 0
                                    cur := (s.cur + 1) % 65536 } := by
  simp [rx_byte, hC, hcur, hcmd]

theorem wrap_loop {cfg : Config} (hC : cfg.CONFIG_BOOT_MAX_LINE_INPUT_LEN = 65536)
    {b : Nat} (k : Nat) :
    ∀ s : State, s.cmd = some b → s.cur < 65536 →
      ∃ s1, rx_loop cfg (List.replicate k 0) s = some s1 ∧ s1.cmd = some b ∧
        s1.cur = (s.cur + k) % 65536 ∧ s1.lines_queue = s.lines_queue ∧
        s1.avail_queue = s.avail_queue ∧ s1.getline_cmd = s.getline_cmd ∧
        s1.line_bufs.length = s.line_bufs.length := by
  induction k with
  | zero =>
    intro s hcmd hcur
    exact ⟨s, rfl, hcmd, by simp [Nat.mod_eq_of_lt hcur], rfl, rfl, rfl, rfl⟩
  | succ k ih =>
    intro s hcmd hcur
    obtain ⟨s1, e1, c1, u1, l1, a1, g1, n1⟩ :=
      ih { s with line_bufs := store_line s.line_bufs b s.cur 0
                  cur := (s.cur + 1) % 65536 } hcmd (Nat.mod_lt _ (by decide))
    refine ⟨s1, ?_, c1, ?_, l1, a1, g1, ?_⟩
    · rw [List.replicate_succ]
      simp only [rx_loop, wrap_byte hC hcmd hcur]
      exact e1
    · rw [u1]
      show ((s.cur + 1) % 65536 + k) % 65536 = (s.cur + (k + 1)) % 65536
      omega
    · rw [n1]
      exact length_store_line _ _ _ _

theorem wrap_frames {cfg : Config} (hC : cfg.CONFIG_BOOT_MAX_LINE_INPUT_LEN = 65536)
    {b : Nat} (z : can_frame) (hid : z.id = cfg.CONFIG_MCUBOOT_CAN_RX_ID)
    (hz : payload z = List.replicate 8 0) (m : Nat) :
    ∀ s : State, s.cmd = some b → s.cur < 65536 →
      ∃ s1, rx_run cfg (List.replicate m z) s = some s1 ∧ s1.cmd = some b ∧
        s1.cur = (s.cur + 8 * m) % 65536 ∧ s1.lines_queue = s.lines_queue ∧
        s1.avail_queue = s.avail_queue ∧ s1.getline_cmd = s.getline_cmd ∧
        s1.line_bufs.length = s.line_bufs.length := by
  induction m with
  | zero =>
    intro s hcmd hcur
    exact ⟨s, rfl, hcmd, by simp [Nat.mod_eq_of_lt hcur], rfl, rfl, rfl, rfl⟩
  | succ m ih =>
    intro s hcmd hcur
    obtain ⟨s1, e1, c1, u1, l1, a1, g1, n1⟩ := wrap_loop hC 8 s hcmd hcur
    have hu1 : s1.cur < 65536 := by rw [u1]; exact Nat.mod_lt _ (by decide)
    obtain ⟨s2, e2, c2, u2, l2, a2, g2, n2⟩ := ih s1 c1 hu1
    have hz' : z.data.take z.dlc = List.replicate 8 0 := hz
    refine ⟨s2, ?_, c2, ?_, l2.trans l1, a2.trans a1, g2.trans g1, n2.trans n1⟩
    · rw [List.replicate_succ]
      simp only [rx_run, can_rx_cb, hid, ↓reduceIte, hcmd, hz', e1]
      exact e2
    · rw [u2, u1]
      omega

theorem acquire_eq {cfg : Config} {f : can_frame} {s : State} {b : Nat} {av : List Nat}
    (hid : f.id = cfg.CONFIG_MCUBOOT_CAN_RX_ID) (hcmd : s.cmd = none)
    (hav : s.avail_queue = b :: av) :
    can_rx_cb cfg f s = can_rx_cb cfg f { s with avail_queue := av, cmd := some b } := by
  simp [can_rx_cb, hid, hcmd, hav, sys_slist_get]

theorem rx_run_append (cfg : Config) (fs gs : List can_frame) (s : State) :
    rx_run cfg (fs ++ gs) s =
      match rx_run cfg fs s with
      | none => none
      | some s1 => rx_run cfg gs s1 := by
  induction fs generalizing s with
  | nil => simp [rx_run]
  | cons f fs ih =>
    simp only [List.cons_append, rx_run]
    rcases can_rx_cb cfg f s with _ | s2
    · rfl
    · exact ih s2

/-- With a capacity of `2 ^ 16` bytes the guard `cur < capacity` always holds
and the cursor wraps: a line of `8 m + k` zero bytes and the terminator,
delivered in `m` frames of eight bytes and a last frame, is published with
`len = ((8 m + k) mod 2^16 + 1) mod 2^16`. -/
theorem wrap_line {cfg : Config} (hC : cfg.CONFIG_BOOT_MAX_LINE_INPUT_LEN = 65536)
    (z last : can_frame) (hid : z.id = cfg.CONFIG_MCUBOOT_CAN_RX_ID)
    (hz : payload z = List.replicate 8 0) (k : Nat)
    (hlid : last.id = cfg.CONFIG_MCUBOOT_CAN_RX_ID)
    (hlast : payload last = List.replicate k 0 ++ [10]) (m : Nat)
    (s : State) (b : Nat) (av : List Nat) (hcmd : s.cmd = none) (hcur : s.cur = 0)
    (hav : s.avail_queue = b :: av) (hb : b < s.line_bufs.length) :
    ∃ s1, rx_run cfg (z :: List.replicate m z ++ [last]) s = some s1 ∧
      s1.cmd = none ∧ s1.cur = 0 ∧ s1.avail_queue = av ∧
      s1.lines_queue = s.lines_queue ++ [b] ∧ s1.getline_cmd = s.getline_cmd ∧
      (buf s1 b).len = (((8 * (m + 1) + k) % 65536 + 1) % 65536 : Nat) ∧
      s1.line_bufs.length = s.line_bufs.length := by
  have h0 : ({ s with avail_queue := av, cmd := some b } : State).cur < 65536 := by
    show s.cur < 65536
    omega
  obtain ⟨s1, e1, c1, u1, l1, a1, g1, n1⟩ :=
    wrap_frames hC z hid hz (m + 1) { s with avail_queue := av, cmd := some b } rfl h0
  have hu1 : s1.cur < 65536 := by rw [u1]; exact Nat.mod_lt _ (by decide)
  obtain ⟨s2, e2, c2, u2, l2, a2, g2, n2⟩ := wrap_loop hC k s1 c1 hu1
  have hu2 : s2.cur < 65536 := by rw [u2]; exact Nat.mod_lt _ (by decide)
  have hb2 : b < s2.line_bufs.length := by rw [n2, n1]; exact hb
  have hst1 : ({ s2 with line_bufs := store_line s2.line_bufs b s2.cur 10 } : State).line_bufs
      = store_line s2.line_bufs b s2.cur 10 := rfl
  have hb3 : b < ({ s2 with line_bufs := store_line s2.line_bufs b s2.cur 10 } :
      State).line_bufs.length := by
    rw [hst1, length_store_line]; exact hb2
  have hlast' : last.data.take last.dlc = List.replicate k 0 ++ [10] := hlast
  have hrun1 : rx_run cfg (z :: List.replicate m z) s = some s1 := by
    rw [← e1, List.replicate_succ]
    simp only [rx_run, acquire_eq hid hcmd hav]
  refine ⟨{ s2 with line_bufs := store_len (store_line s2.line_bufs b s2.cur 10) b
                      (((s2.cur + 1) % 65536 : Nat) : Int)
                    lines_queue := s2.lines_queue ++ [b]
                    cur := 0
                    cmd := none }, ?_, rfl, rfl, ?_, ?_, ?_, ?_, ?_⟩
  · have : z :: List.replicate m z ++ [last] = (z :: List.replicate m z) ++ [last] := rfl
    rw [this, rx_run_append, hrun1]
    simp only [rx_run, can_rx_cb, hlid, ↓reduceIte, c1, hlast', rx_loop_append, e2]
    simp [rx_loop, rx_byte, hC, hu2, c2, sys_slist_append]
  · show s2.avail_queue = av
    rw [a2, a1]
  · show s2.lines_queue ++ [b] = s.lines_queue ++ [b]
    rw [l2, l1]
  · show s2.getline_cmd = s.getline_cmd
    rw [g2, g1]
  · have hst2 : ({ s2 with
          line_bufs := store_len (store_line s2.line_bufs b s2.cur 10) b
            (((s2.cur + 1) % 65536 : Nat) : Int),
          lines_queue := s2.lines_queue ++ [b], cur := 0, cmd := none } : State).line_bufs
        = store_len ({ s2 with line_bufs := store_line s2.line_bufs b s2.cur 10 } :
            State).line_bufs b (((s2.cur + 1) % 65536 : Nat) : Int) := rfl
    rw [buf_store_len_eq hst2 hb3]
    show (((s2.cur + 1) % 65536 : Nat) : Int) = _
    rw [u2, u1]
    show (((((s.cur + 8 * (m + 1)) % 65536 + k) % 65536 + 1) % 65536 : Nat) : Int) = _
    rw [hcur]
    congr 1
    omega
  · show (store_len (store_line s2.line_bufs b s2.cur 10) b _).length = _
    rw [length_store_len, length_store_line, n2, n1]

theorem init_state_fields (cfg : Config) :
    (init_state cfg).avail_queue = List.range cfg.CONFIG_BOOT_LINE_BUFS ∧
    (init_state cfg).lines_queue = [] ∧ (init_state cfg).cmd = none ∧
    (init_state cfg).cur = 0 ∧ (init_state cfg).getline_cmd = none ∧
    (init_state cfg).line_bufs.length = cfg.CONFIG_BOOT_LINE_BUFS := by
  refine ⟨?_, rfl, rfl, rfl, rfl, ?_⟩
  · simp [init_state, boot_console_init, init_loop_eq, sys_slist_init, List.range_eq_range']
  · simp [init_state, boot_console_init, boot_state]

theorem run_results_rx (cfg : Config) (fs : List can_frame) (evs : List Ev) (s : State) :
    run_results cfg (fs.map Ev.rx ++ evs) s =
      match rx_run cfg fs s with
      | none => none
      | some s1 => run_results cfg evs s1 := by
  induction fs generalizing s with
  | nil => simp [rx_run]
  | cons f fs ih =>
    simp only [List.map_cons, List.cons_append, run_results, rx_run]
    rcases can_rx_cb cfg f s with _ | s2
    · rfl
    · exact ih s2

theorem zeros8_facts :
    zeros8.id = cfg64k.CONFIG_MCUBOOT_CAN_RX_ID ∧ payload zeros8 = List.replicate 8 0 := by
  decide

/-- C4, counterexample: with a capacity of `2 ^ 16` bytes, a line of
`65537 > C` bytes (65536 zero bytes and the terminator) delivered to the idle
assembler of the state left by `boot_console_init`, in 8192 frames of eight
bytes and a last frame, is published with `len = 1`, not with `len = C`. -/
theorem C4_counterexample_capacity_65536 :
    (init_state cfg64k).cmd = none ∧ (init_state cfg64k).cur = 0 ∧
    (init_state cfg64k).avail_queue = [0, 1] ∧
    (((zeros8 :: List.replicate 8191 zeros8).map payload).flatten ++ [10] =
      List.replicate 65536 0 ++ [10]) ∧
    cfg64k.CONFIG_BOOT_MAX_LINE_INPUT_LEN < (List.replicate 65536 (0 : Int) ++ [10]).length ∧
    ∃ s1, rx_run cfg64k (zeros8 :: List.replicate 8191 zeros8 ++ [rx16 [10]])
        (init_state cfg64k) = some s1 ∧
      s1.lines_queue = [0] ∧ (buf s1 0).len = 1 ∧
      (buf s1 0).len ≠ cfg64k.CONFIG_BOOT_MAX_LINE_INPUT_LEN := by
  obtain ⟨hav, hl, hcmd, hcur, -, hn⟩ := init_state_fields cfg64k
  have hav' : (init_state cfg64k).avail_queue = 0 :: [1] := by
    rw [hav]; rfl
  obtain ⟨s1, e1, -, -, -, l1, -, n1, -⟩ :=
    wrap_line (rfl : cfg64k.CONFIG_BOOT_MAX_LINE_INPUT_LEN = 65536) zeros8 (rx16 [10])
      zeros8_facts.1 zeros8_facts.2 0 rfl rfl 8191 (init_state cfg64k) 0 [1] hcmd hcur hav'
      (by rw [hn]; decide)
  have hlen : (buf s1 0).len = 1 := by
    rw [n1]
    rfl
  refine ⟨hcmd, hcur, hav', ?_, ?_, s1, e1, ?_, hlen, ?_⟩
  · rw [← List.replicate_succ, List.map_replicate, zeros8_facts.2,
      List.flatten_replicate_replicate]
  · rw [List.length_append, List.length_replicate]
    decide
  · rw [l1, hl]
    rfl
  · rw [hlen]
    decide

theorem rx_stream_rx (fs : List can_frame) (evs : List Ev) :
    rx_stream (fs.map Ev.rx ++ evs) = (fs.map payload).flatten ++ rx_stream evs := by
  induction fs with
  | nil => simp
  | cons f fs ih => simp [rx_stream, ih]

theorem never_exhausted_rx (cfg : Config) (fs : List can_frame) (evs : List Ev) :
    ∀ s : State,
      (∀ i, i < fs.length → ∀ si, rx_run cfg (fs.take i) s = some si →
        si.cmd.isSome = true ∨ si.avail_queue ≠ []) →
      never_exhausted cfg (fs.map Ev.rx ++ evs) s =
        match rx_run cfg fs s with
        | none => true
        | some s1 => never_exhausted cfg evs s1 := by
  induction fs with
  | nil =>
    intro s _
    simp [rx_run]
  | cons f fs ih =>
    intro s h
    have h0 := h 0 (by simp) s rfl
    have hb : (s.cmd.isSome || !s.avail_queue.isEmpty) = true := by
      rcases h0 with h0 | h0
      · simp [h0]
      · rcases hav : s.avail_queue with _ | ⟨a, l⟩
        · exact absurd hav h0
        · simp
    simp only [List.map_cons, List.cons_append, never_exhausted, rx_run, hb, Bool.true_and]
    rcases hs : can_rx_cb cfg f s with _ | s2
    · rfl
    · apply ih s2
      intro i hi si hsi
      apply h (i + 1) (by simpa using hi) si
      simp only [List.take_succ_cons, rx_run, hs]
      exact hsi

theorem take_cons_replicate_append (z last : can_frame) (m i : Nat) (hi : i < m + 2)
    (h0 : 0 < i) :
    (z :: List.replicate m z ++ [last]).take i = z :: List.replicate (i - 1) z := by
  have h1 : (z :: List.replicate m z ++ [last]) = List.replicate (m + 1) z ++ [last] := by
    rw [List.replicate_succ]
  rw [h1, List.take_append_of_le_length (by simp; omega), List.take_replicate]
  have : min i (m + 1) = (i - 1) + 1 := by omega
  rw [this, List.replicate_succ]

/-- Along the frames of `wrap_line` the producer never finds `avail_queue`
empty. -/
theorem wrap_never_exhausted {cfg : Config}
    (hC : cfg.CONFIG_BOOT_MAX_LINE_INPUT_LEN = 65536)
    (z last : can_frame) (hid : z.id = cfg.CONFIG_MCUBOOT_CAN_RX_ID)
    (hz : payload z = List.replicate 8 0) (m : Nat)
    (s s1 : State) (b : Nat) (av : List Nat) (hcmd : s.cmd = none) (hcur : s.cur = 0)
    (hav : s.avail_queue = b :: av)
    (hrun : rx_run cfg (z :: List.replicate m z ++ [last]) s = some s1) (evs : List Ev) :
    never_exhausted cfg ((z :: List.replicate m z ++ [last]).map Ev.rx ++ evs) s =
      never_exhausted cfg evs s1 := by
  rw [never_exhausted_rx, hrun]
  intro i hi si hsi
  rcases Nat.eq_zero_or_pos i with h0 | h0
  · subst h0
    simp [rx_run] at hsi
    right
    rw [← hsi, hav]
    simp
  · left
    have hi' : i < m + 2 := by simpa using hi
    rw [take_cons_replicate_append z last m i hi' h0] at hsi
    have h00 : ({ s with avail_queue := av, cmd := some b } : State).cur < 65536 := by
      show s.cur < 65536
      omega
    obtain ⟨s2, e2, c2, -⟩ :=
      wrap_frames hC z hid hz ((i - 1) + 1) { s with avail_queue := av, cmd := some b } rfl h00
    have : rx_run cfg (z :: List.replicate (i - 1) z) s = some s2 := by
      rw [← e2, List.replicate_succ]
      simp only [rx_run, acquire_eq hid hcmd hav]
    rw [this] at hsi
    have hs : s2 = si := Option.some.inj hsi
    rw [← hs, c2]
    rfl

/-- The frames of a line of 65535 zero bytes and the terminator: 8191 frames
of eight zero bytes and a last frame of seven zero bytes and the terminator. -/
theorem long_line_frames :
    ((zeros8 :: List.replicate 8190 zeros8 ++
        [rx16 (List.replicate 7 0 ++ [10])]).map payload).flatten =
      List.replicate 65535 0 ++ [10] ∧
    (List.replicate 65535 (0 : Int) ++ [10]).length
      ≤ cfg64k.CONFIG_BOOT_MAX_LINE_INPUT_LEN ∧
    payload (rx16 (List.replicate 7 0 ++ [10])) = List.replicate 7 0 ++ [10] := by
  have hlastp : payload (rx16 (List.replicate 7 0 ++ [10])) = List.replicate 7 0 ++ [10] := by
    decide
  refine ⟨?_, ?_, hlastp⟩
  · have h1 : (zeros8 :: List.replicate 8190 zeros8 ++ [rx16 (List.replicate 7 0 ++ [10])]) =
        List.replicate 8191 zeros8 ++ [rx16 (List.replicate 7 0 ++ [10])] := rfl
    rw [h1, List.map_append, List.map_replicate, zeros8_facts.2, List.flatten_append,
      List.flatten_replicate_replicate, List.map_singleton, hlastp]
    simp only [List.flatten_cons, List.flatten_nil, List.append_nil]
    rw [← List.append_assoc, List.append_replicate_replicate]
  · rw [List.length_append, List.length_replicate]
    decide

/-- C2, counterexample: with a capacity of `2 ^ 16` bytes and two buffers, one
line of `65536 <= C` bytes (65535 zero bytes and the terminator), delivered
from the state left by `boot_console_init` in 8191 frames of eight zero bytes
and a last frame of seven zero bytes and the terminator, each with the receive
identifier, without the producer ever finding `avail_queue` empty, is handed
to the reader with length 0, not with its byte count 65536. -/
theorem C2_counterexample_capacity_65536 :
    ((zeros8 :: List.replicate 8190 zeros8 ++
        [rx16 (List.replicate 7 0 ++ [10])]).map payload).flatten =
      List.replicate 65535 0 ++ [10] ∧
    (List.replicate 65535 (0 : Int) ++ [10]).length ≤ cfg64k.CONFIG_BOOT_MAX_LINE_INPUT_LEN ∧
    rx_stream ((zeros8 :: List.replicate 8190 zeros8 ++
        [rx16 (List.replicate 7 0 ++ [10])]).map Ev.rx ++ [Ev.getline]) =
      [List.replicate 65535 0 ++ [10]].flatten ∧
    never_exhausted cfg64k ((zeros8 :: List.replicate 8190 zeros8 ++
        [rx16 (List.replicate 7 0 ++ [10])]).map Ev.rx ++ [Ev.getline])
      (init_state cfg64k) = true ∧
    ∃ sfin arr, run_results cfg64k ((zeros8 :: List.replicate 8190 zeros8 ++
        [rx16 (List.replicate 7 0 ++ [10])]).map Ev.rx ++ [Ev.getline])
      (init_state cfg64k) = some (sfin, [(some arr, 0)]) := by
  obtain ⟨hav, hl, hcmd, hcur, -, hn⟩ := init_state_fields cfg64k
  have hav' : (init_state cfg64k).avail_queue = 0 :: [1] := by
    rw [hav]; rfl
  obtain ⟨hflat, hlen65536, hlastp⟩ := long_line_frames
  obtain ⟨s1, e1, -, -, -, l1, -, n1, -⟩ :=
    wrap_line (rfl : cfg64k.CONFIG_BOOT_MAX_LINE_INPUT_LEN = 65536) zeros8
      (rx16 (List.replicate 7 0 ++ [10]))
      zeros8_facts.1 zeros8_facts.2 7 rfl hlastp 8190 (init_state cfg64k) 0 [1] hcmd hcur hav'
      (by rw [hn]; decide)
  have hlen : (buf s1 0).len = 0 := by
    rw [n1]
    rfl
  have hq : s1.lines_queue = 0 :: [] := by
    rw [l1, hl]
    rfl
  refine ⟨hflat, hlen65536, ?_, ?_, ?_⟩
  · rw [rx_stream_rx, hflat, show rx_stream [Ev.getline] = [] from rfl, List.append_nil,
      List.flatten_cons, List.flatten_nil, List.append_nil]
  · rw [wrap_never_exhausted (rfl : cfg64k.CONFIG_BOOT_MAX_LINE_INPUT_LEN = 65536) zeros8
      (rx16 (List.replicate 7 0 ++ [10])) zeros8_facts.1 zeros8_facts.2 8190
      (init_state cfg64k) s1 0 [1] hcmd hcur hav' e1]
    rfl
  · obtain ⟨s2, hg, -⟩ := getline_ready hq
    refine ⟨s2, (buf s2 0).line, ?_⟩
    rw [run_results_rx, e1]
    simp only [run_results, hg, Option.map_some', hlen]

/-- C5, counterexample: with a capacity of `2 ^ 16` bytes and two buffers
there is a reachable state with no buffer in progress, `avail_queue` empty and
buffer 0 held by the reader; after the next reader call has released buffer 0
to `avail_queue`, a complete line of `65536 <= C` bytes (65535 zero bytes and
the terminator) delivered in its own frames is published in buffer 0 with
`len = 0`, not with its byte count. -/
theorem C5_counterexample_capacity_65536 :
    ((zeros8 :: List.replicate 8190 zeros8 ++
        [rx16 (List.replicate 7 0 ++ [10])]).map payload).flatten =
      List.replicate 65535 0 ++ [10] ∧
    (List.replicate 65535 (0 : Int) ++ [10]).length ≤ cfg64k.CONFIG_BOOT_MAX_LINE_INPUT_LEN ∧
    ∃ s, Reachable cfg64k s ∧ s.cmd = none ∧ s.avail_queue = [] ∧
      s.getline_cmd = some 0 ∧ (boot_can_fifo_getline s).1.avail_queue = [0] ∧
      ∃ s2, rx_run cfg64k (zeros8 :: List.replicate 8190 zeros8 ++
          [rx16 (List.replicate 7 0 ++ [10])]) (boot_can_fifo_getline s).1 = some s2 ∧
        s2.lines_queue = (boot_can_fifo_getline s).1.lines_queue ++ [0] ∧
        (buf s2 0).len = 0 := by
  have hC : cfg64k.CONFIG_BOOT_MAX_LINE_INPUT_LEN = 65536 := rfl
  obtain ⟨hav, hl, hcmd, hcur, hg, hn⟩ := init_state_fields cfg64k
  have hav' : (init_state cfg64k).avail_queue = 0 :: [1] := by
    rw [hav]; rfl
  have hn' : (init_state cfg64k).line_bufs.length = 2 := hn
  obtain ⟨hflat, hlen65536, hlastp⟩ := long_line_frames
  obtain ⟨sA, eA, cA, uA, aA, lA, gA, -, nA⟩ :=
    wrap_line hC zeros8 (rx16 [10]) zeros8_facts.1 zeros8_facts.2 0 rfl rfl 0
      (init_state cfg64k) 0 [1] hcmd hcur hav' (by rw [hn']; decide)
  obtain ⟨sB, eB, cB, uB, aB, lB, gB, -, nB⟩ :=
    wrap_line hC zeros8 (rx16 [10]) zeros8_facts.1 zeros8_facts.2 0 rfl rfl 0
      sA 1 [] cA uA aA (by rw [nA, hn']; decide)
  have hrA : Reachable cfg64k sA := reachable_rx_run _ Reachable.init eA
  have hrB : Reachable cfg64k sB := reachable_rx_run _ hrA eB
  have hqB : sB.lines_queue = 0 :: [1] := by
    rw [lB, lA, hl]; rfl
  have hgB : sB.getline_cmd = none := by rw [gB, gA, hg]
  obtain ⟨s3, e3, b3, l3, g3, c3, u3⟩ := getline_ready hqB
  have h3 : (boot_can_fifo_getline sB).1 = s3 := by rw [e3]
  have hr3 : Reachable cfg64k s3 := by
    rw [← h3]
    exact Reachable.step Ev.getline hrB rfl
  have ha3 : s3.avail_queue = [] := by
    rw [← h3, getline_avail (wf_reachable hrB).pool, aB, hgB]
    rfl
  obtain ⟨s4, e4, b4, l4, g4, c4, u4⟩ := getline_ready l3
  have h4 : (boot_can_fifo_getline s3).1 = s4 := by rw [e4]
  have ha4 : s4.avail_queue = 0 :: [] := by
    rw [← h4, getline_avail (wf_reachable hr3).pool, ha3, g3]
    rfl
  have hn4 : s4.line_bufs.length = 2 := by rw [b4, b3, nB, nA, hn']
  obtain ⟨s5, e5, -, -, -, l5, -, n5, -⟩ :=
    wrap_line hC zeros8 (rx16 (List.replicate 7 0 ++ [10])) zeros8_facts.1 zeros8_facts.2
      7 rfl hlastp 8190 s4 0 [] (c4.trans (c3.trans cB)) (u4.trans (u3.trans uB)) ha4
      (by rw [hn4]; decide)
  refine ⟨hflat, hlen65536, s3,
    hr3, c3.trans cB, ha3, g3, ?_, s5, ?_, ?_, ?_⟩
  · rw [h4, ha4]
  · rw [h4]; exact e5
  · rw [h4]; exact l5
  · rw [n5]; rfl

/-! ## The identity filter and the status of the initialisation -/

/-- C11: on a frame whose identifier differs from `CONFIG_MCUBOOT_CAN_RX_ID`,
`can_rx_cb` returns and leaves the whole state as it was (`avail_queue`,
`lines_queue`, the buffer in progress, the cursor, every buffer): no buffer is
acquired and no byte is stored. -/
theorem C11_identity_filter (cfg : Config) (f : can_frame) (s : State)
    (hid : f.id ≠ cfg.CONFIG_MCUBOOT_CAN_RX_ID) :
    can_rx_cb cfg f s = some s ∧ can_rx_cb_writes cfg f s = [] := by
  simp [can_rx_cb, can_rx_cb_writes, hid]

theorem C11_identity_filter_witness :
    (⟨0x123, 3, 0, [97, 10, 98]⟩ : can_frame).id ≠ cfg16.CONFIG_MCUBOOT_CAN_RX_ID ∧
    can_rx_cb cfg16 ⟨0x123, 3, 0, [97, 10, 98]⟩ (init_state cfg16) = some (init_state cfg16) ∧
    can_rx_cb_writes cfg16 ⟨0x123, 3, 0, [97, 10, 98]⟩ (init_state cfg16) = [] :=
  have hid : (⟨0x123, 3, 0, [97, 10, 98]⟩ : can_frame).id ≠ cfg16.CONFIG_MCUBOOT_CAN_RX_ID := by
    decide
  have h := C11_identity_filter cfg16 ⟨0x123, 3, 0, [97, 10, 98]⟩ (init_state cfg16) hid
  ⟨hid, h.1, h.2⟩

/-- C12: with the codes of `can_start` and `can_add_rx_filter` as parameters,
`boot_console_init` returns the code of `can_start` unchanged and does not
register the receive filter whenever that code is not zero; when `can_start`
returns 0 and `can_add_rx_filter` returns a negative code it returns
`-EINVAL`; in both cases the returned status is not zero. -/
theorem C12_init_failure (cfg : Config) (s : State) (rc_start rc_filter : Int) :
    (rc_start ≠ 0 →
      (boot_console_init cfg rc_start rc_filter s).2 = (rc_start, false) ∧
      (boot_console_init cfg rc_start rc_filter s).2.1 ≠ 0) ∧
    (rc_start = 0 → rc_filter < 0 →
      (boot_console_init cfg rc_start rc_filter s).2.1 = -EINVAL ∧
      (boot_console_init cfg rc_start rc_filter s).2.1 ≠ 0) := by
  constructor
  · intro h
    simp [boot_console_init, h]
  · intro h0 hneg
    simp [boot_console_init, h0, hneg, EINVAL]

theorem C12_init_failure_witness :
    ((-5 : Int) ≠ 0 ∧
      (boot_console_init cfg16 (-5) 3 (boot_state cfg16)).2 = (-5, false) ∧
      (boot_console_init cfg16 (-5) 3 (boot_state cfg16)).2.1 ≠ 0) ∧
    ((0 : Int) = 0 ∧ (-19 : Int) < 0 ∧
      (boot_console_init cfg16 0 (-19) (boot_state cfg16)).2.1 = -EINVAL ∧
      (boot_console_init cfg16 0 (-19) (boot_state cfg16)).2.1 ≠ 0) :=
  have h1 : (-5 : Int) ≠ 0 := by decide
  have h2 : (-19 : Int) < 0 := by decide
  have a := (C12_init_failure cfg16 (boot_state cfg16) (-5) 3).1 h1
  have b := (C12_init_failure cfg16 (boot_state cfg16) 0 (-19)).2 rfl h2
  ⟨⟨h1, a.1, a.2⟩, ⟨rfl, h2, b.1, b.2⟩⟩

/-- C14: after `boot_console_init`, whatever `can_start` and
`can_add_rx_filter` return and whatever the queues held before, `avail_queue`
holds the buffers `0, 1, ..., N-1` in this order, each once, and `lines_queue`
is empty. -/
theorem C14_initial_pool (cfg : Config) (s : State) (rc_start rc_filter : Int) :
    (boot_console_init cfg rc_start rc_filter s).1.avail_queue =
      List.range cfg.CONFIG_BOOT_LINE_BUFS ∧
    (boot_console_init cfg rc_start rc_filter s).1.avail_queue.Nodup ∧
    (∀ b, b ∈ (boot_console_init cfg rc_start rc_filter s).1.avail_queue ↔
      b < cfg.CONFIG_BOOT_LINE_BUFS) ∧
    (boot_console_init cfg rc_start rc_filter s).1.lines_queue = [] := by
  have h : (boot_console_init cfg rc_start rc_filter s).1.avail_queue =
      List.range cfg.CONFIG_BOOT_LINE_BUFS := by
    unfold boot_console_init
    by_cases h1 : rc_start ≠ 0
    · simp [h1, init_loop_eq, sys_slist_init, List.range_eq_range']
    · by_cases h2 : rc_filter < 0 <;>
        simp [h1, h2, init_loop_eq, sys_slist_init, List.range_eq_range']
  refine ⟨h, ?_, ?_, ?_⟩
  · rw [h]
    exact List.nodup_range _
  · intro b
    rw [h]
    exact List.mem_range
  · unfold boot_console_init
    by_cases h1 : rc_start ≠ 0
    · simp [h1, sys_slist_init]
    · by_cases h2 : rc_filter < 0 <;> simp [h1, h2, sys_slist_init]

/-- C17: when `can_start` returns 0 and `can_add_rx_filter` returns a filter
id `f >= 0`, `boot_console_init` registers the filter and returns `f` itself:
the result is 0 exactly when `f = 0` and is never negative; and whenever
`can_start` returns 0 (or any code that is not positive), a positive result is
the filter id that `can_add_rx_filter` returned after a successful start, not
a failure. -/
theorem C17_init_success (cfg : Config) (s : State) (rc_start f : Int)
    (h0 : rc_start = 0) (hf : 0 ≤ f) :
    (boot_console_init cfg rc_start f s).2 = (f, true) ∧
    ((boot_console_init cfg rc_start f s).2.1 = 0 ↔ f = 0) ∧
    0 ≤ (boot_console_init cfg rc_start f s).2.1 ∧
    ∀ rs rf : Int, rs ≤ 0 → 0 < (boot_console_init cfg rs rf s).2.1 →
      rs = 0 ∧ (boot_console_init cfg rs rf s).2 = (rf, true) ∧ 0 ≤ rf := by
  have hnot : ¬ f < 0 := not_lt.mpr hf
  have h : (boot_console_init cfg rc_start f s).2 = (f, true) := by
    simp [boot_console_init, h0, hnot]
  refine ⟨h, by rw [h], by rw [h]; exact hf, ?_⟩
  intro rs rf hrs hpos
  by_cases hz : rs = 0
  · by_cases hneg : rf < 0
    · simp [boot_console_init, hz, hneg, EINVAL] at hpos
    · exact ⟨hz, by simp [boot_console_init, hz, hneg], not_lt.mp hneg⟩
  · simp [boot_console_init, hz] at hpos
    omega

theorem C17_init_success_witness :
    (0 : Int) = 0 ∧ (0 : Int) ≤ 3 ∧
    (boot_console_init cfg16 0 3 (boot_state cfg16)).2 = (3, true) ∧
    ((boot_console_init cfg16 0 3 (boot_state cfg16)).2.1 = 0 ↔ (3 : Int) = 0) ∧
    0 ≤ (boot_console_init cfg16 0 3 (boot_state cfg16)).2.1 :=
  have h := C17_init_success cfg16 (boot_state cfg16) 0 3 rfl (by decide)
  ⟨rfl, by decide, h.1, h.2.1, h.2.2.1⟩

/-! ## The cursor and the stores of the callback -/

theorem rx_loop_writes_ok {cfg : Config} (bytes : List Int) :
    ∀ {s : State}, WF cfg s → ∀ w ∈ rx_loop_writes cfg bytes s,
      w.2 < cfg.CONFIG_BOOT_MAX_LINE_INPUT_LEN ∧
      ∀ b, w.1 = some b → b < cfg.CONFIG_BOOT_LINE_BUFS := by
  induction bytes with
  | nil =>
    intro s _ w hw
    simp [rx_loop_writes] at hw
  | cons c rest ih =>
    intro s hwf w hw
    have hfirst : ∀ w ∈ (if s.cur < cfg.CONFIG_BOOT_MAX_LINE_INPUT_LEN
        then [(s.cmd, s.cur)] else ([] : List (Option Nat × Nat))),
        w.2 < cfg.CONFIG_BOOT_MAX_LINE_INPUT_LEN ∧
        ∀ b, w.1 = some b → b < cfg.CONFIG_BOOT_LINE_BUFS := by
      intro w hw
      by_cases hlt : s.cur < cfg.CONFIG_BOOT_MAX_LINE_INPUT_LEN
      · simp only [hlt, ↓reduceIte, List.mem_singleton] at hw
        rw [hw]
        refine ⟨hlt, fun b hb => ?_⟩
        have := wf_cmd_lt hwf hb
        rw [hwf.nbufs] at this
        exact this
      · simp [hlt] at hw
    unfold rx_loop_writes at hw
    rcases hb : rx_byte cfg s c with _ | s1
    · simp only [hb] at hw
      exact hfirst w hw
    · simp only [hb] at hw
      rcases List.mem_append.mp hw with h | h
      · exact hfirst w h
      · exact ih (wf_rx_byte hwf hb) w h

theorem can_rx_cb_writes_ok {cfg : Config} {s : State} (hwf : WF cfg s) (f : can_frame) :
    ∀ w ∈ can_rx_cb_writes cfg f s,
      w.2 < cfg.CONFIG_BOOT_MAX_LINE_INPUT_LEN ∧
      ∀ b, w.1 = some b → b < cfg.CONFIG_BOOT_LINE_BUFS := by
  intro w hw
  unfold can_rx_cb_writes at hw
  by_cases hid : f.id = cfg.CONFIG_MCUBOOT_CAN_RX_ID
  · rcases hcmd : s.cmd with _ | b
    · rcases hav : s.avail_queue with _ | ⟨n, rest⟩
      · simp [hid, hcmd, hav, sys_slist_get] at hw
      · simp only [hid, hcmd, hav, sys_slist_get, ↓reduceIte] at hw
        exact rx_loop_writes_ok _ (wf_acquire hwf hcmd hav) w hw
    · simp only [hid, hcmd, ↓reduceIte] at hw
      exact rx_loop_writes_ok _ hwf w hw
  · simp [hid] at hw

/-- C16: in every reachable state the cursor is between 0 and
`CONFIG_BOOT_MAX_LINE_INPUT_LEN`, it is 0 whenever no buffer is in progress,
and every store `cmd->line[cur]` that a call of `can_rx_cb` on any frame
executes is at an index below the capacity, which is the length of the `line`
array of the buffer stored into. -/
theorem C16_cursor_invariant (cfg : Config) (s : State) (hr : Reachable cfg s) :
    0 ≤ s.cur ∧ s.cur ≤ cfg.CONFIG_BOOT_MAX_LINE_INPUT_LEN ∧
    (s.cmd = none → s.cur = 0) ∧
    ∀ (f : can_frame), ∀ w ∈ can_rx_cb_writes cfg f s,
      w.2 < cfg.CONFIG_BOOT_MAX_LINE_INPUT_LEN ∧
      ∀ b, w.1 = some b → w.2 < (buf s b).line.length := by
  have hwf := wf_reachable hr
  refine ⟨Nat.zero_le _, hwf.cur_le, hwf.idle, ?_⟩
  intro f w hw
  obtain ⟨h1, h2⟩ := can_rx_cb_writes_ok hwf f w hw
  refine ⟨h1, fun b hb => ?_⟩
  have hb' : b < s.line_bufs.length := by
    rw [hwf.nbufs]
    exact h2 b hb
  rw [wf_line_length hwf hb']
  exact h1

theorem C16_cursor_invariant_witness :
    Reachable cfg16 state_checked_out ∧
    can_rx_cb_writes cfg16 (rx16 [121, 111, 10]) state_checked_out =
      [(some 1, 0), (some 1, 1), (some 1, 2)] ∧
    0 ≤ state_checked_out.cur ∧
    state_checked_out.cur ≤ cfg16.CONFIG_BOOT_MAX_LINE_INPUT_LEN ∧
    (state_checked_out.cmd = none → state_checked_out.cur = 0) ∧
    ∀ (f : can_frame), ∀ w ∈ can_rx_cb_writes cfg16 f state_checked_out,
      w.2 < cfg16.CONFIG_BOOT_MAX_LINE_INPUT_LEN ∧
      ∀ b, w.1 = some b → w.2 < (buf state_checked_out b).line.length :=
  have hr : Reachable cfg16 state_checked_out :=
    reachable_run [Ev.rx (rx16 [104, 105, 10]), Ev.getline] Reachable.init (by decide)
  ⟨hr, by decide, C16_cursor_invariant cfg16 state_checked_out hr⟩

/-! ## Shape of the published lines -/

theorem lineinv_rx_byte {cfg : Config} (hC1 : 1 ≤ cfg.CONFIG_BOOT_MAX_LINE_INPUT_LEN)
    (hC : cfg.CONFIG_BOOT_MAX_LINE_INPUT_LEN < 65536) {s s1 : State} {c : Int}
    (hwf : WF cfg s) (hinv : LineInv cfg s) (h : rx_byte cfg s c = some s1) :
    LineInv cfg s1 := by
  rcases hcmd : s.cmd with _ | b
  · -- without a buffer in progress the iteration returns only when it stores nothing
    unfold rx_byte at h
    by_cases hlt : s.cur < cfg.CONFIG_BOOT_MAX_LINE_INPUT_LEN <;> by_cases h10 : c = 10 <;>
      simp [hlt, hcmd, h10] at h
    rw [← h]
    exact hinv
  · have hb := wf_cmd_lt hwf hcmd
    have hlen := wf_line_length hwf hb
    have hnq : b ∉ s.lines_queue := inuse_not_queued hwf (Or.inl ⟨hcmd, rfl⟩)
    have hclean := hinv.clean b hcmd
    by_cases hlt : s.cur < cfg.CONFIG_BOOT_MAX_LINE_INPUT_LEN
    · have hmod : (s.cur + 1) % 65536 = s.cur + 1 := Nat.mod_eq_of_lt (by omega)
      by_cases h10 : c = 10
      · obtain ⟨sm, hsm⟩ : ∃ sm : State,
            sm = { s with line_bufs := store_line s.line_bufs b s.cur 10 } := ⟨_, rfl⟩
        have hst1 : sm.line_bufs = store_line s.line_bufs b s.cur 10 := by rw [hsm]
        have hb1 : b < sm.line_bufs.length := by
          rw [hst1, length_store_line]; exact hb
        have hs1 : s1.line_bufs = store_len sm.line_bufs b ((s.cur + 1 : Nat) : Int) ∧
            s1.lines_queue = s.lines_queue ++ [b] ∧ s1.cmd = none := by
          simp [rx_byte, hlt, hcmd, h10, hmod, sys_slist_append] at h
          rw [← h, hst1]
          exact ⟨rfl, rfl, rfl⟩
        obtain ⟨hbufs, hq, hc1⟩ := hs1
        refine ⟨?_, ?_⟩
        · intro b1 hb1q
          rw [hq] at hb1q
          rcases List.mem_append.mp hb1q with hm | hm
          · have hne : b1 ≠ b := fun e => hnq (e ▸ hm)
            rw [buf_store_len_ne hbufs hne, buf_store_line_ne hst1 hne]
            exact hinv.shaped b1 hm
          · have hbe : b1 = b := by simpa using hm
            rw [hbe, buf_store_len_eq hbufs hb1, buf_store_line_eq hst1 hb]
            refine ⟨?_, ?_, ?_, ?_⟩
            · show (1 : Int) ≤ ((s.cur + 1 : Nat) : Int)
              omega
            · show ((s.cur + 1 : Nat) : Int) ≤ _
              omega
            · intro i hi
              have hi' : i < s.cur := by
                have : (i : Int) < ((s.cur + 1 : Nat) : Int) - 1 := hi
                omega
              show ((buf s b).line.set s.cur 10)[i]? ≠ some 10
              rw [List.getElem?_set_ne (by omega)]
              exact hclean i hi'
            · intro _
              show ((buf s b).line.set s.cur 10)[(((s.cur + 1 : Nat) : Int) - 1).toNat]?
                = some 10
              have : (((s.cur + 1 : Nat) : Int) - 1).toNat = s.cur := by omega
              rw [this, List.getElem?_set_self (by omega)]
        · intro b1 hb1
          rw [hc1] at hb1
          exact absurd hb1 (by simp)
      · have hst : s1.line_bufs = store_line s.line_bufs b s.cur c ∧
            s1.lines_queue = s.lines_queue ∧ s1.cmd = some b ∧ s1.cur = s.cur + 1 := by
          simp [rx_byte, hlt, hcmd, h10, hmod] at h
          rw [← h]
          exact ⟨rfl, rfl, rfl, rfl⟩
        obtain ⟨hbufs, hq, hc1, hu1⟩ := hst
        refine ⟨?_, ?_⟩
        · intro b1 hb1q
          rw [hq] at hb1q
          have hne : b1 ≠ b := fun e => hnq (e ▸ hb1q)
          rw [buf_store_line_ne hbufs hne]
          exact hinv.shaped b1 hb1q
        · intro b1 hb1 i hi
          have hbe : b1 = b := by
            rw [hc1] at hb1
            exact (Option.some.inj hb1).symm
          rw [hbe, buf_store_line_eq hbufs hb]
          show ((buf s b).line.set s.cur c)[i]? ≠ some 10
          rw [hu1] at hi
          by_cases hic : i = s.cur
          · rw [hic, List.getElem?_set_self (by omega)]
            intro hce
            exact h10 (Option.some.inj hce)
          · rw [List.getElem?_set_ne (fun e => hic e.symm)]
            exact hclean i (by omega)
    · have hcC : s.cur = cfg.CONFIG_BOOT_MAX_LINE_INPUT_LEN := by
        have := hwf.cur_le
        omega
      by_cases h10 : c = 10
      · have hs1 : s1.line_bufs = store_len s.line_bufs b (s.cur : Int) ∧
            s1.lines_queue = s.lines_queue ++ [b] ∧ s1.cmd = none := by
          simp [rx_byte, hlt, hcmd, h10, sys_slist_append] at h
          rw [← h]
          exact ⟨rfl, rfl, rfl⟩
        obtain ⟨hbufs, hq, hc1⟩ := hs1
        refine ⟨?_, ?_⟩
        · intro b1 hb1q
          rw [hq] at hb1q
          rcases List.mem_append.mp hb1q with hm | hm
          · have hne : b1 ≠ b := fun e => hnq (e ▸ hm)
            rw [buf_store_len_ne hbufs hne]
            exact hinv.shaped b1 hm
          · have hbe : b1 = b := by simpa using hm
            rw [hbe, buf_store_len_eq hbufs hb]
            refine ⟨?_, ?_, ?_, ?_⟩
            · show (1 : Int) ≤ (s.cur : Int)
              omega
            · show (s.cur : Int) ≤ _
              omega
            · intro i hi
              have hi' : i < s.cur := by
                have : (i : Int) < (s.cur : Int) - 1 := hi
                omega
              exact hclean i hi'
            · intro hlt'
              have : (s.cur : Int) < cfg.CONFIG_BOOT_MAX_LINE_INPUT_LEN := hlt'
              omega
        · intro b1 hb1
          rw [hc1] at hb1
          exact absurd hb1 (by simp)
      · have : s1 = s := by
          simp [rx_byte, hlt, h10] at h
          exact h.symm
        rw [this]
        exact hinv

theorem lineinv_rx_loop {cfg : Config} (hC1 : 1 ≤ cfg.CONFIG_BOOT_MAX_LINE_INPUT_LEN)
    (hC : cfg.CONFIG_BOOT_MAX_LINE_INPUT_LEN < 65536) (bytes : List Int) :
    ∀ {s s1 : State}, WF cfg s → LineInv cfg s → rx_loop cfg bytes s = some s1 →
      LineInv cfg s1 := by
  induction bytes with
  | nil =>
    intro s s1 _ hinv h
    simp [rx_loop] at h
    rw [← h]
    exact hinv
  | cons c rest ih =>
    intro s s1 hwf hinv h
    unfold rx_loop at h
    rcases hb : rx_byte cfg s c with _ | s2
    · simp [hb] at h
    · simp [hb] at h
      exact ih (wf_rx_byte hwf hb) (lineinv_rx_byte hC1 hC hwf hinv hb) h

theorem lineinv_can_rx_cb {cfg : Config} (hC1 : 1 ≤ cfg.CONFIG_BOOT_MAX_LINE_INPUT_LEN)
    (hC : cfg.CONFIG_BOOT_MAX_LINE_INPUT_LEN < 65536) {f : can_frame} {s s1 : State}
    (hwf : WF cfg s) (hinv : LineInv cfg s) (h : can_rx_cb cfg f s = some s1) :
    LineInv cfg s1 := by
  unfold can_rx_cb at h
  by_cases hid : f.id = cfg.CONFIG_MCUBOOT_CAN_RX_ID
  · rcases hcmd : s.cmd with _ | b
    · rcases hav : s.avail_queue with _ | ⟨n, rest⟩
      · simp [hid, hcmd, hav, sys_slist_get] at h
        rw [← h]
        exact hinv
      · simp [hid, hcmd, hav, sys_slist_get] at h
        have hinv' : LineInv cfg { s with avail_queue := rest, cmd := some n } := by
          refine ⟨hinv.shaped, ?_⟩
          intro b1 _ i hi
          have h0 : s.cur = 0 := hwf.idle hcmd
          have hi' : i < s.cur := hi
          omega
        exact lineinv_rx_loop hC1 hC _ (wf_acquire hwf hcmd hav) hinv' h
    · simp [hid, hcmd] at h
      exact lineinv_rx_loop hC1 hC _ hwf hinv h
  · simp [hid] at h
    rw [← h]
    exact hinv

theorem getline_queue_subset (s : State) :
    ∀ b ∈ (boot_can_fifo_getline s).1.lines_queue, b ∈ s.lines_queue := by
  intro b hb
  rcases hl : s.lines_queue with _ | ⟨n, rest⟩
  · simp [boot_can_fifo_getline, hl, sys_slist_get] at hb
  · simp [boot_can_fifo_getline, hl, sys_slist_get] at hb
    exact List.mem_cons_of_mem _ hb

theorem lineinv_getline {cfg : Config} {s : State} (hinv : LineInv cfg s) :
    LineInv cfg (boot_can_fifo_getline s).1 := by
  obtain ⟨h1, h2, h3⟩ := getline_fields s
  have hbuf : ∀ b, buf (boot_can_fifo_getline s).1 b = buf s b := fun b => by
    simp [buf, h1]
  refine ⟨?_, ?_⟩
  · intro b hb
    rw [hbuf]
    exact hinv.shaped b (getline_queue_subset s b hb)
  · intro b hb i hi
    rw [hbuf]
    rw [h3] at hb
    rw [h2] at hi
    exact hinv.clean b hb i hi

theorem lineinv_init_state (cfg : Config) : LineInv cfg (init_state cfg) := by
  refine ⟨?_, ?_⟩
  · intro b hb
    simp [init_state, boot_console_init, sys_slist_init] at hb
  · intro b hb
    simp [init_state, boot_console_init, boot_state] at hb

theorem lineinv_reachable {cfg : Config} (hC1 : 1 ≤ cfg.CONFIG_BOOT_MAX_LINE_INPUT_LEN)
    (hC : cfg.CONFIG_BOOT_MAX_LINE_INPUT_LEN < 65536) {s : State} (hr : Reachable cfg s) :
    LineInv cfg s := by
  induction hr with
  | init => exact lineinv_init_state cfg
  | step e hprev hs ih =>
    cases e with
    | rx f => exact lineinv_can_rx_cb hC1 hC (wf_reachable hprev) ih hs
    | getline =>
      simp [step] at hs
      rw [← hs]
      exact lineinv_getline ih

theorem console_read_newline {s : State} {str : List Int} {str_size : Int}
    {r : State × List Int × Int × Int} (hq : s.lines_queue ≠ [])
    (h : console_read s str str_size = some r) : r.2.2.1 = 1 := by
  rcases hl : s.lines_queue with _ | ⟨b, rest⟩
  · exact absurd hl hq
  · obtain ⟨s1, hg, -⟩ := getline_ready hl
    unfold console_read at h
    rw [hg] at h
    simp only at h
    split at h <;> split at h <;>
      first
        | rw [← Option.some.inj h]
        | exact absurd h (by simp)

/-- C15 (with the capacity within the range of the 16-bit cursor): in every
reachable state, with `1 <= C <= 65535`, every buffer in `lines_queue`, and so
every buffer `boot_can_fifo_getline` returns, has `1 <= len <= C`, no `'\n'`
below index `len - 1`, and `'\n'` at index `len - 1` whenever `len < C`;
`console_read` reports `newline = 1` for every line it returns, also for a
line with `len = C` that lacks the terminator, as the one of
`state_truncated`. -/
theorem C15_line_shape (cfg : Config) (hC1 : 1 ≤ cfg.CONFIG_BOOT_MAX_LINE_INPUT_LEN)
    (hC : cfg.CONFIG_BOOT_MAX_LINE_INPUT_LEN < 65536) (s : State) (hr : Reachable cfg s) :
    (∀ b ∈ s.lines_queue, Shape cfg.CONFIG_BOOT_MAX_LINE_INPUT_LEN (buf s b)) ∧
    (∀ s1 b len, boot_can_fifo_getline s = (s1, some b, len) →
      Shape cfg.CONFIG_BOOT_MAX_LINE_INPUT_LEN (buf s1 b) ∧ len = (buf s1 b).len) ∧
    (∀ str str_size r, s.lines_queue ≠ [] → console_read s str str_size = some r →
      r.2.2.1 = 1) ∧
    (Reachable cfg4 state_truncated ∧ 0 ∈ state_truncated.lines_queue ∧
      (buf state_truncated 0).len = cfg4.CONFIG_BOOT_MAX_LINE_INPUT_LEN ∧
      (10 : Int) ∉ (buf state_truncated 0).line ∧
      console_read state_truncated [7, 7, 7, 7, 7, 7] 6 =
        some ((boot_can_fifo_getline state_truncated).1, [97, 98, 99, 100, 0, 7], 1, 5)) := by
  have hinv := lineinv_reachable hC1 hC hr
  refine ⟨hinv.shaped, ?_, ?_, ?_⟩
  · intro s1 b len hg
    rcases hl : s.lines_queue with _ | ⟨n, rest⟩
    · simp [boot_can_fifo_getline, hl, sys_slist_get] at hg
    · simp [boot_can_fifo_getline, hl, sys_slist_get] at hg
      obtain ⟨e1, e2, e3⟩ := hg
      have hbuf : buf s1 b = buf s b := by
        rw [← e1]
        rfl
      rw [hbuf, ← e3, ← e2]
      exact ⟨hinv.shaped n (by rw [hl]; exact List.mem_cons_self _ _), rfl⟩
  · intro str str_size r hq h
    exact console_read_newline hq h
  · refine ⟨?_, by decide, by decide, by decide, by decide⟩
    exact reachable_rx_run [rx16 [97, 98, 99], rx16 [100, 101, 10]] Reachable.init
      (by decide)

theorem C15_line_shape_witness :
    1 ≤ cfg16.CONFIG_BOOT_MAX_LINE_INPUT_LEN ∧ cfg16.CONFIG_BOOT_MAX_LINE_INPUT_LEN < 65536 ∧
    Reachable cfg16 state_line_ready ∧
    Shape cfg16.CONFIG_BOOT_MAX_LINE_INPUT_LEN (buf state_line_ready 0) ∧
    (∀ s1 b len, boot_can_fifo_getline state_line_ready = (s1, some b, len) →
      Shape cfg16.CONFIG_BOOT_MAX_LINE_INPUT_LEN (buf s1 b) ∧ len = (buf s1 b).len) :=
  have hr : Reachable cfg16 state_line_ready :=
    Reachable.step (Ev.rx (rx16 [104, 105, 10])) Reachable.init (by decide)
  have h := C15_line_shape cfg16 (by decide) (by decide) state_line_ready hr
  ⟨by decide, by decide, hr, h.1 0 (by decide), h.2.1⟩

/-- C15, counterexample: with a capacity of `2 ^ 16 >= 1` bytes the state
reached from the one left by `boot_console_init` by a line of 65536 bytes
(65535 zero bytes and the terminator, in frames of eight bytes) has buffer 0
in `lines_queue` with `len = 0`, not with `1 <= len`. -/
theorem C15_counterexample_capacity_65536 :
    1 ≤ cfg64k.CONFIG_BOOT_MAX_LINE_INPUT_LEN ∧
    ∃ s, Reachable cfg64k s ∧ 0 ∈ s.lines_queue ∧ (buf s 0).len = 0 ∧
      ¬ Shape cfg64k.CONFIG_BOOT_MAX_LINE_INPUT_LEN (buf s 0) := by
  obtain ⟨hav, hl, hcmd, hcur, -, hn⟩ := init_state_fields cfg64k
  have hav' : (init_state cfg64k).avail_queue = 0 :: [1] := by
    rw [hav]; rfl
  obtain ⟨-, -, hlastp⟩ := long_line_frames
  obtain ⟨s1, e1, -, -, -, l1, -, n1, -⟩ :=
    wrap_line (rfl : cfg64k.CONFIG_BOOT_MAX_LINE_INPUT_LEN = 65536) zeros8
      (rx16 (List.replicate 7 0 ++ [10]))
      zeros8_facts.1 zeros8_facts.2 7 rfl hlastp 8190 (init_state cfg64k) 0 [1] hcmd hcur hav'
      (by rw [hn]; decide)
  have hlen : (buf s1 0).len = 0 := by
    rw [n1]
    rfl
  refine ⟨by decide, s1, reachable_rx_run _ Reachable.init e1, ?_, hlen, ?_⟩
  · rw [l1, hl]
    exact List.mem_cons_self _ _
  · intro hshape
    have := hshape.1
    rw [hlen] at this
    exact absurd this (by decide)

end CanAdapter
